import Mathlib

/-
Verification development for the dagre-based auto-layout core and the
streaming parser boundary of the diagram-generation repository.

The layout engine (`auto-layout-dagre.ts`) is embedded shallowly:

* `CompactElement` mirrors the compact wire element (`t`, `i`, `l`, `ch`,
  `si`/`ei`, optional `x`/`y`/`w`/`h`).  JS numbers are modelled as `Int`:
  every geometry value the engine itself produces is an integer
  (`Math.round`ed dagre output, integer gaps and paddings).
* The mutable element array plus the `elementsById` map are modelled as a
  single value-passing store `List CompactElement`; `getById`/`updateById`
  resolve an id to the first matching element.  The JS `Map` keeps the last
  duplicate binding, and two same-id objects would alias differently, so
  theorems that depend on the store carry a `Nodup` hypothesis on ids
  (id uniqueness is an input invariant of the data model), under which the
  value model and the JS aliasing semantics agree.
* `dagre.layout` is an external npm library, out of this repository; it is
  abstracted as an oracle that either throws (an error message, as in JS)
  or assigns a rounded top-left position to every graph node.  Everything
  the repository's own code does (graph construction, size estimation,
  position application, frame bounding, reflow, overlap resolution, the
  try/catch classification of errors) is embedded from the source.
* `shiftElementAndDescendants` has no visited set in the source and can
  recurse forever on a cyclic containment graph; it is embedded with an
  explicit recursion-depth budget (`fuel`), mirroring the finite JS call
  stack: exhausting the budget is the model of the stack-overflow
  exception, and produces the corresponding error message in the pipeline.
  On the error paths the model returns the store as of the start of the
  failing pass; no theorem below inspects the partially-shifted state.
-/

namespace NoexLayout

/-- A compact semantic element, as produced by the streaming parser and
consumed by `layoutWithDagre` (`CompactElement` of `excalidraw-converter`). -/
structure CompactElement where
  i : String
  t : String
  l : Option String := none
  x : Option Int := none
  y : Option Int := none
  w : Option Int := none
  h : Option Int := none
  ch : Option (List String) := none
  si : Option String := none
  ei : Option String := none
deriving Repr, DecidableEq

/-- The element store: the JS element array (mutated in place by the engine). -/
abbrev Store := List CompactElement

/-- `TYPE_MAP[t] || t`: compact type codes mapped to full type names. -/
def mapType (t : String) : String :=
  if t = "r" then "rectangle"
  else if t = "el" then "ellipse"
  else if t = "d" then "diamond"
  else if t = "a" then "arrow"
  else if t = "tx" then "text"
  else if t = "ln" then "line"
  else if t = "fr" then "frame"
  else t

/-- The character class of the CJK regex
`[一-鿿぀-ゟ゠-ヿ]` in `calculateTextWidth` and
`calculateNodeHeight`. -/
def isCJK (c : Char) : Bool :=
  (0x4e00 ≤ c.toNat ∧ c.toNat ≤ 0x9fff) ∨
  (0x3040 ≤ c.toNat ∧ c.toNat ≤ 0x309f) ∨
  (0x30a0 ≤ c.toNat ∧ c.toNat ≤ 0x30ff)

/-- Per-character width sum of `calculateTextWidth`: 18 per CJK character,
10 per other character. -/
def charWidthSum (text : String) : Int :=
  (text.data.map (fun c => if isCJK c then (18 : Int) else 10)).sum

/-- `calculateTextWidth`: 100 for empty text, otherwise
`Math.max(100, width + 24)`. -/
def calculateTextWidth (text : String) : Int :=
  if text = "" then 100
  else max 100 (charWidthSum text + 24)

/-- `Math.ceil (a / b)` for integers with `b > 0`:
the ceiling of the rational quotient is `-((-a) / b)` with flooring
division, and `Int.ediv` floors for a positive divisor. -/
def ceilDivI (a b : Int) : Int := -((-a).ediv b)

/-- `calculateNodeHeight`: 50 for empty text, otherwise a wrapped-line
estimate with line height 32 and vertical padding 35 (CJK) or 30. -/
def calculateNodeHeight (text : String) (containerWidth : Int) : Int :=
  if text = "" then 50
  else
    let availableWidth := max 50 (containerWidth - 24)
    let textWidth := charWidthSum text
    let hasCJK := text.data.any isCJK
    let lineCount := max 1 (ceilDivI textWidth availableWidth)
    (if hasCJK then 35 else 30) + lineCount * 32

/-- `elementsById.get id` on the store (first matching element; see the
header note on id uniqueness). -/
def getById (st : Store) (id : String) : Option CompactElement :=
  st.find? (fun e => e.i = id)

/-- Mutating the element resolved by `elementsById.get id` in place:
rewrite the (first) element carrying the id. -/
def updateById : Store → String → (CompactElement → CompactElement) → Store
  | [], _, _ => []
  | e :: rest, id, f =>
      if e.i = id then f e :: rest else e :: updateById rest id f

/-- The element's `ch` list (`el.ch`), defaulting to no children. -/
def chOf (st : Store) (id : String) : List String :=
  ((getById st id).bind (fun e => e.ch)).getD []

/-- `Math.min(...)` over a list produced from a nonempty collection (the
`[]` default is never reached by the engine, which guards for emptiness). -/
def minI : List Int → Int
  | [] => 0
  | v :: vs => vs.foldl min v

/-- `Math.max(...)` over a list produced from a nonempty collection. -/
def maxI : List Int → Int
  | [] => 0
  | v :: vs => vs.foldl max v

/-- The in-place move of one element performed at the top of
`shiftElementAndDescendants`: `el.x = (el.x ?? 0) + dx; el.y = (el.y ?? 0) + dy`. -/
def shiftGeom (dx dy : Int) (e : CompactElement) : CompactElement :=
  { e with x := some (e.x.getD 0 + dx), y := some (e.y.getD 0 + dy) }

/-- The `for (const childId of el.ch)` loop inside
`shiftElementAndDescendants`, abstracted over the recursive call `rec`
(the shift of one child's subtree): children missing from `elementsById`
are skipped; a thrown stack overflow aborts the loop. -/
def shiftChildren (rec : Store → String → Store × Bool) :
    Store → List String → Store × Bool
  | st, [] => (st, true)
  | st, c :: cs =>
      match getById st c with
      | none => shiftChildren rec st cs
      | some _ =>
          match rec st c with
          | (st1, true) => shiftChildren rec st1 cs
          | (st1, false) => (st1, false)

/-- `shiftElementAndDescendants`: move an element and, recursively, every
element reachable through `ch`.  The source has no visited set, so the
recursion is bounded only by the call stack; `fuel` is the remaining stack
depth and a `false` flag is the stack-overflow exception. -/
def shiftElementAndDescendants : Nat → Store → String → Int → Int → Store × Bool
  | 0, st, _, _, _ => (st, false)
  | Nat.succ fuel, st, id, dx, dy =>
      let st1 := updateById st id (shiftGeom dx dy)
      shiftChildren (fun st2 c => shiftElementAndDescendants fuel st2 c dx dy)
        st1 (chOf st1 id)

/-- One insertion of the stable ascending sort: a new element goes after
every element the comparator places at or before it, so later input
elements stay after earlier equal-key ones. -/
def insertSorted (le : CompactElement → CompactElement → Bool)
    (x : CompactElement) : List CompactElement → List CompactElement
  | [] => [x]
  | y :: ys => if le y x then y :: insertSorted le x ys else x :: y :: ys

/-- JS `Array.prototype.sort` (stable since ES2019) with an ascending
comparator: modelled as a stable insertion sort by the comparator's `≤`,
which produces the same list as any stable ascending sort. -/
def sortStable (le : CompactElement → CompactElement → Bool)
    (l : List CompactElement) : List CompactElement :=
  l.foldl (fun acc x => insertSorted le x acc) []

/-- Step 1 of `resolveFrameOverlaps`: walk the x-sorted sibling list and
shift any frame whose left edge is closer than `GAP = 40` to its left
neighbour's right edge (reading the live store each iteration, as the JS
loop reads the mutated objects). -/
def resolveStep1 : Nat → Store → List String → Store × Bool
  | _, st, [] => (st, true)
  | _, st, [_] => (st, true)
  | fuel, st, p :: c :: rest =>
      match getById st p, getById st c with
      | some prev, some curr =>
          let prevRight := prev.x.getD 0 + prev.w.getD 0
          let currLeft := curr.x.getD 0
          if currLeft < prevRight + 40 then
            match shiftElementAndDescendants fuel st c (prevRight + 40 - currLeft) 0 with
            | (st1, true) => resolveStep1 fuel st1 (c :: rest)
            | (st1, false) => (st1, false)
          else resolveStep1 fuel st (c :: rest)
      | _, _ => resolveStep1 fuel st (c :: rest)

/-- Step 2 of `resolveFrameOverlaps`: align tops of siblings that sit on
roughly the same vertical level (`ALIGN_THRESHOLD = 150`), shifting the
lower ones up by `dy = minY - currentY`. -/
def resolveStep2 : Nat → Store → List String → Int → Store × Bool
  | _, st, [], _ => (st, true)
  | fuel, st, f :: fs, minY =>
      match getById st f with
      | none => resolveStep2 fuel st fs minY
      | some frame =>
          let currentY := frame.y.getD 0
          if minY < currentY ∧ (minY - currentY).natAbs < 150 then
            match shiftElementAndDescendants fuel st f 0 (minY - currentY) with
            | (st1, true) => resolveStep2 fuel st1 fs minY
            | (st1, false) => (st1, false)
          else resolveStep2 fuel st fs minY

/-- `resolveFrameOverlaps`: sort the sibling frames by x position, restore
the minimum horizontal gap walking left to right, then align tops.  The
`childToParent` parameter of the source is unused there and dropped here. -/
def resolveFrameOverlaps (fuel : Nat) (st : Store) (sibIds : List String) : Store × Bool :=
  let sibs := sibIds.filterMap (getById st)
  if sibs.length < 2 then (st, true)
  else
    let sorted := sortStable (fun a b => a.x.getD 0 ≤ b.x.getD 0) sibs
    let ids := sorted.map (fun e => e.i)
    match resolveStep1 fuel st ids with
    | (st1, false) => (st1, false)
    | (st1, true) =>
        let ys := (ids.filterMap (getById st1)).map (fun f => f.y.getD 0)
        resolveStep2 fuel st1 ids (minI ys)

/-- `Math.ceil(Math.sqrt(n) * 1.5)` for a natural `n`: for `k, n ≥ 0`,
`k ≥ 1.5·√n  ↔  4k² ≥ 9n`, so the ceiling is the least such `k`; it always
lies below `n + 2`, which makes the bounded search total and exact. -/
def ceilSqrtScaled (n : Nat) : Nat :=
  (((List.range (n + 2)).filter (fun k => 9 * n ≤ 4 * (k * k))).headD (n + 2))

/-- The first (planning) pass of `reflowToGrid`: grid positions relative to
(0,0), filling rows left to right with `GAP_X = GAP_Y = 60` and wrapping
after `columns` cells.  State: produced positions, currentX, currentY,
rowHeight, colIndex. -/
def planGrid (columns : Nat) (children : List CompactElement) :
    List (String × Int × Int) :=
  (children.foldl
    (fun (acc : List (String × Int × Int) × Int × Int × Int × Nat) child =>
      let ps := acc.1 ++ [(child.i, acc.2.1, acc.2.2.1)]
      let rowHeight := max acc.2.2.2.1 (child.h.getD 0)
      let currentX := acc.2.1 + child.w.getD 0 + 60
      let colIndex := acc.2.2.2.2 + 1
      if columns ≤ colIndex then (ps, 0, acc.2.2.1 + rowHeight + 60, 0, 0)
      else (ps, currentX, acc.2.2.1, rowHeight, colIndex))
    ([], 0, 0, 0, 0)).1

/-- The second (apply) pass of `reflowToGrid`: leaf children (`t ≠ 'f'`)
get the absolute grid position directly; a nested frame is shifted together
with its descendants by the delta to its new position. -/
def applyGrid : Nat → Store → List (String × Int × Int) → Int → Int → Store × Bool
  | _, st, [], _, _ => (st, true)
  | fuel, st, pos :: rest, startX, startY =>
      match getById st pos.1 with
      | none => applyGrid fuel st rest startX startY
      | some child =>
          let newAbsX := startX + pos.2.1
          let newAbsY := startY + pos.2.2
          if child.t ≠ "f" then
            applyGrid fuel
              (updateById st pos.1
                (fun e => { e with x := some newAbsX, y := some newAbsY }))
              rest startX startY
          else
            match shiftElementAndDescendants fuel st pos.1
                (newAbsX - child.x.getD 0) (newAbsY - child.y.getD 0) with
            | (st1, true) => applyGrid fuel st1 rest startX startY
            | (st1, false) => (st1, false)

/-- `reflowToGrid`: sort the children by original x, plan grid slots, and
apply them starting from the first (leftmost) child's position.  The
`parentFrame` parameter of the source is unused there and dropped here. -/
def reflowToGrid (fuel : Nat) (children : List CompactElement) (columns : Nat)
    (st : Store) : Store × Bool :=
  let sorted := sortStable (fun a b => a.x.getD 0 ≤ b.x.getD 0) children
  match sorted with
  | [] => (st, true)
  | c0 :: _ =>
      applyGrid fuel st (planGrid columns sorted) (c0.x.getD 0) (c0.y.getD 0)

/-- The per-frame loop of `reflowFrameChildren`, over the ids selected by
its `el.t === 'f'` filter. -/
def reflowFrames : Nat → Store → List String → Store × Bool
  | _, st, [] => (st, true)
  | fuel, st, fid :: rest =>
      match getById st fid with
      | none => reflowFrames fuel st rest
      | some frame =>
          if (frame.ch.getD []).length < 4 then reflowFrames fuel st rest
          else
            let children :=
              ((frame.ch.getD []).filterMap (getById st)).filter (fun e => e.t ≠ "a")
            match children with
            | [] => reflowFrames fuel st rest
            | c0 :: _ =>
                let isSingleRow :=
                  children.all (fun c => (c.y.getD 0 - c0.y.getD 0).natAbs < 100)
                if isSingleRow ∧ 3 < children.length then
                  match reflowToGrid fuel children
                      (ceilSqrtScaled children.length) st with
                  | (st1, true) => reflowFrames fuel st1 rest
                  | (st1, false) => (st1, false)
                else reflowFrames fuel st rest

/-- `reflowFrameChildren`: reflow the children of every element selected by
`elements.filter(el => el.t === 'f')` (the raw code `'f'` — not run through
`TYPE_MAP`) whose `ch` has at least 4 entries and whose non-`'a'` children
form a single visual row. -/
def reflowFrameChildren (fuel : Nat) (st : Store) : Store × Bool :=
  reflowFrames fuel st ((st.filter (fun el => el.t = "f")).map (fun el => el.i))

/-- The frames considered by the frame-bounding passes:
`elements.filter(el => TYPE_MAP[el.t] === 'frame' && el.ch && el.ch.length > 0)`. -/
def framesOf (els : Store) : List CompactElement :=
  els.filter (fun el => mapType el.t = "frame" ∧ 0 < (el.ch.getD []).length)

/-- `getFrameDepth`: number of ancestor frames of `frameId`, walking to the
first frame whose `ch` contains the current id; the shared visited set cuts
revisits to depth 0, which bounds the recursion even on cyclic containment. -/
def getFrameDepth (frames : List CompactElement) (frameId : String)
    (visited : Finset String) : Nat :=
  if hv : frameId ∈ visited then 0
  else
    match h : frames.find? (fun f => (f.ch.getD []).contains frameId) with
    | none => 0
    | some f => 1 + getFrameDepth frames f.i (insert frameId visited)
termination_by
  ((insert frameId ((frames.map (fun f => f.i)).toFinset)) \ visited).card
decreasing_by
  have hmem : f ∈ frames := List.mem_of_find?_eq_some h
  have hfi : f.i ∈ (frames.map (fun f => f.i)).toFinset := by
    simp only [List.mem_toFinset, List.mem_map]
    exact ⟨f, hmem, rfl⟩
  have hsub : (insert f.i ((frames.map (fun f => f.i)).toFinset)) \ (insert frameId visited)
      ⊆ (insert frameId ((frames.map (fun f => f.i)).toFinset)) \ visited := by
    intro a ha
    obtain ⟨hin, hout⟩ := Finset.mem_sdiff.mp ha
    refine Finset.mem_sdiff.mpr ⟨?_, fun hv2 => hout (Finset.mem_insert_of_mem hv2)⟩
    rcases Finset.mem_insert.mp hin with h1 | h2
    · exact Finset.mem_insert_of_mem (h1 ▸ hfi)
    · exact Finset.mem_insert_of_mem h2
  apply Finset.card_lt_card
  rw [Finset.ssubset_iff_of_subset hsub]
  exact ⟨frameId,
    Finset.mem_sdiff.mpr ⟨Finset.mem_insert_self _ _, hv⟩,
    fun hc => (Finset.mem_sdiff.mp hc).2 (Finset.mem_insert_self _ _)⟩

/-- The depth-sorted frame list of `layoutWithDagre`
(`frames.sort((a, b) => getFrameDepth(b.i) - getFrameDepth(a.i))`, deepest
first; the JS sort is stable), projected to ids. -/
def sortedFrameIds (els : Store) : List String :=
  let frames := framesOf els
  (sortStable
    (fun a b => getFrameDepth frames b.i ∅ ≤ getFrameDepth frames a.i ∅)
    frames).map (fun f => f.i)

/-- `LayoutConfig` with its defaults (`DEFAULT_CONFIG`). -/
structure LayoutConfig where
  rankdir : String := "TB"
  ranksep : Int := 120
  nodesep : Int := 60
  marginx : Int := 50
  marginy : Int := 50
deriving Repr, DecidableEq

/-- The node width used in graph construction:
`el.w || calculateTextWidth(el.l || '')` (JS `||`: an explicit `0` width is
falsy and falls back to the estimate). -/
def nodeWidth (el : CompactElement) : Int :=
  match el.w with
  | some w => if w = 0 then calculateTextWidth (el.l.getD "") else w
  | none => calculateTextWidth (el.l.getD "")

/-- The node height used in graph construction:
`el.h || calculateNodeHeight(el.l || '', width)`. -/
def nodeHeight (el : CompactElement) : Int :=
  match el.h with
  | some h => if h = 0 then calculateNodeHeight (el.l.getD "") (nodeWidth el) else h
  | none => calculateNodeHeight (el.l.getD "") (nodeWidth el)

/-- `g.setNode`: insert or overwrite the node with this id. -/
def setNode (ns : List (String × Int × Int)) (id : String) (w h : Int) :
    List (String × Int × Int) :=
  if ns.any (fun n => n.1 = id) then
    ns.map (fun n => if n.1 = id then (id, w, h) else n)
  else ns ++ [(id, w, h)]

/-- First pass of `layoutWithDagre`: every non-arrow, non-frame element
becomes a graph node sized from its text. -/
def buildNodes (els : Store) : List (String × Int × Int) :=
  els.foldl
    (fun ns el =>
      if mapType el.t = "arrow" ∨ mapType el.t = "frame" then ns
      else setNode ns el.i (nodeWidth el) (nodeHeight el))
    []

/-- `g.hasNode`. -/
def hasNode (ns : List (String × Int × Int)) (id : String) : Bool :=
  ns.any (fun n => n.1 = id)

/-- `g.node(id)`: the width/height recorded for a node id. -/
def nodeDims (ns : List (String × Int × Int)) (id : String) : Option (Int × Int) :=
  (ns.find? (fun n => n.1 = id)).map (fun n => n.2)

/-- `g.setEdge`: a second edge with the same endpoints overwrites the first
(the edge label plays no further role in the model). -/
def setEdge (es : List (String × String)) (v w : String) : List (String × String) :=
  if es.any (fun e => e.1 = v ∧ e.2 = w) then es else es ++ [(v, w)]

/-- Ids recorded as some frame's child (`childToParent` keys; only its
membership test is ever consulted). -/
def containedIds (els : Store) : List String :=
  els.foldl (fun acc el => acc ++ el.ch.getD []) []

/-- The edge a connector contributes:
`el.si && el.ei && g.hasNode(el.si) && g.hasNode(el.ei)` (JS truthiness:
an empty-string endpoint is falsy). -/
def arrowEdge (ns : List (String × Int × Int)) (el : CompactElement) :
    Option (String × String) :=
  match el.si, el.ei with
  | some s, some e =>
      if s ≠ "" ∧ e ≠ "" ∧ hasNode ns s ∧ hasNode ns e then some (s, e) else none
  | _, _ => none

/-- The top-level (non-contained, non-arrow) elements used for edge
synthesis, in their original order. -/
def rootElements (els : Store) : Store :=
  els.filter (fun el => ¬ (el.i ∈ containedIds els) ∧ mapType el.t ≠ "arrow")

/-- Second pass plus order-based synthesis of `layoutWithDagre`: edges come
from connectors whose two endpoints are graph nodes; only when the element
list contains no arrow elements at all, consecutive top-level elements are
chained, skipping pairs with a frame endpoint. -/
def buildEdges (els : Store) (ns : List (String × Int × Int)) :
    List (String × String) :=
  let arrowEdges :=
    els.foldl
      (fun es el =>
        if mapType el.t ≠ "arrow" then es
        else match arrowEdge ns el with
          | some (s, e) => setEdge es s e
          | none => es)
      []
  let arrows := els.filter (fun el => mapType el.t = "arrow")
  if arrows.length = 0 then
    let roots := rootElements els
    (roots.zip roots.tail).foldl
      (fun es p =>
        if mapType p.1.t ≠ "frame" ∧ mapType p.2.t ≠ "frame" ∧
            hasNode ns p.1.i ∧ hasNode ns p.2.i then
          setEdge es p.1.i p.2.i
        else es)
      arrowEdges
  else arrowEdges

/-- The dagre graph handed to `dagre.layout`. -/
structure DagreGraph where
  cfg : LayoutConfig
  nodes : List (String × Int × Int)
  edges : List (String × String)

/-- The external `dagre.layout` call (the npm library, not part of this
repository) abstracted: it either throws an error message or assigns every
node a centre; composed with the engine's own
`Math.round(node.x - node.width / 2)` conversion, the model receives the
rounded top-left corner per node id. -/
def Oracle : Type := DagreGraph → Except String (String → Int × Int)

/-- Applying the dagre positions: every non-arrow, non-frame element with a
graph node gets the rounded top-left position and its node dimensions. -/
def applyPositions (els : Store) (ns : List (String × Int × Int))
    (pos : String → Int × Int) : Store :=
  els.map (fun el =>
    if mapType el.t = "arrow" ∨ mapType el.t = "frame" then el
    else match nodeDims ns el.i with
      | none => el
      | some d =>
          { el with x := some (pos el.i).1, y := some (pos el.i).2,
                    w := some d.1, h := some d.2 })

/-- The element filter of `collectDescendants` inside the frame-bounding
loops: direct children resolved through `elementsById`; a nested frame with
children contributes itself (its own bounds); other non-arrow children
contribute themselves; arrows are dropped. -/
def collectDescendants (st : Store) (ids : List String) : List CompactElement :=
  ids.foldr
    (fun id acc =>
      match getById st id with
      | none => acc
      | some child =>
          if mapType child.t = "frame" ∧ 0 < (child.ch.getD []).length then
            child :: acc
          else if mapType child.t ≠ "arrow" then child :: acc
          else acc)
    []

/-- The box written onto a frame by the frame-bounding loop: min/max of the
collected children's boxes expanded by `PADDING = 50` on all sides plus
`TITLE_OFFSET = 30` above. -/
def frameBox (ds : List CompactElement) (e : CompactElement) : CompactElement :=
  let minX := minI (ds.map (fun c => c.x.getD 0)) - 50
  let maxX := maxI (ds.map (fun c => c.x.getD 0 + c.w.getD 120)) + 50
  let minY := minI (ds.map (fun c => c.y.getD 0)) - 50 - 30
  let maxY := maxI (ds.map (fun c => c.y.getD 0 + c.h.getD 60)) + 50
  { e with x := some minX, y := some minY,
           w := some (maxX - minX), h := some (maxY - minY) }

/-- One frame of the frame-bounding loop: frames with no collected children
are skipped, otherwise the frame's box is recomputed from them. -/
def frameBoundsStep (st : Store) (fid : String) : Store :=
  match getById st fid with
  | none => st
  | some _ =>
      let ds := collectDescendants st (chOf st fid)
      if ds.length = 0 then st
      else updateById st fid (frameBox ds)

/-- One full frame-bounding pass over the depth-sorted frames (the loop
appears three times verbatim in `layoutWithDagre`). -/
def frameBoundsPass (ids : List String) (st : Store) : Store :=
  ids.foldl frameBoundsStep st

/-- The per-parent sibling resolution: for each frame, its child frames
(selected through `TYPE_MAP`) are overlap-resolved when more than one. -/
def resolveChildFrameGroups : Nat → Store → List String → Store × Bool
  | _, st, [] => (st, true)
  | fuel, st, pid :: rest =>
      let childFrames :=
        ((chOf st pid).filterMap (getById st)).filter
          (fun el => mapType el.t = "frame")
      if 1 < childFrames.length then
        match resolveFrameOverlaps fuel st (childFrames.map (fun el => el.i)) with
        | (st1, true) => resolveChildFrameGroups fuel st1 rest
        | (st1, false) => (st1, false)
      else resolveChildFrameGroups fuel st rest

/-- The message of a JS stack-overflow exception (what an unbounded
`shiftElementAndDescendants` recursion raises when it exhausts the stack). -/
def stackOverflowMsg : String := "Maximum call stack size exceeded"

/-- The skip check at the top of `layoutWithDagre`: more than half of the
non-`'a'` elements already carry both coordinates
(`withCoords.length > nonArrow.length * 0.5`, i.e. `nonArrow < 2 * withCoords`
over integers). -/
def skipCond (els : Store) : Bool :=
  let withCoords :=
    els.filter (fun el => el.x.isSome ∧ el.y.isSome ∧ el.t ≠ "a")
  let nonArrow := els.filter (fun el => el.t ≠ "a")
  0 < nonArrow.length ∧ nonArrow.length < 2 * withCoords.length

/-- The body of the `try` block of `layoutWithDagre`: empty graphs return
the input; a throwing rank assignment surfaces its message; otherwise
positions are applied, frames bounded, wide frames reflowed, bounds redone,
sibling overlaps resolved (top-level groups then per-parent groups), and
bounds computed once more.  The second component is the caught error. -/
def layoutTry (fuel : Nat) (els : Store) (cfg : LayoutConfig) (orc : Oracle) :
    Store × Option String :=
  let ns := buildNodes els
  let es := buildEdges els ns
  if ns.length = 0 then (els, none)
  else
    match orc ⟨cfg, ns, es⟩ with
    | Except.error m => (els, some m)
    | Except.ok pos =>
        let st1 := applyPositions els ns pos
        let sorted := sortedFrameIds els
        let st2 := frameBoundsPass sorted st1
        match reflowFrameChildren fuel st2 with
        | (st3, false) => (st3, some stackOverflowMsg)
        | (st3, true) =>
            let st4 := frameBoundsPass sorted st3
            let topIds := sorted.filter (fun fid => ¬ (fid ∈ containedIds els))
            match resolveFrameOverlaps fuel st4 topIds with
            | (st5, false) => (st5, some stackOverflowMsg)
            | (st5, true) =>
                match resolveChildFrameGroups fuel st5 sorted with
                | (st6, false) => (st6, some stackOverflowMsg)
                | (st6, true) => (frameBoundsPass sorted st6, none)

/-- Substring test (`String.includes` of JS). -/
def strIncludes (s pat : String) : Bool :=
  s.toList.tails.any (fun t => pat.toList.isPrefixOf t)

/-- The catch clause's transient-error classification:
`errMsg.includes('weight') || errMsg.includes('rank') || errMsg.includes('undefined')`. -/
def isTransientMsg (m : String) : Bool :=
  strIncludes m "weight" ∨ strIncludes m "rank" ∨ strIncludes m "undefined"

/-- `layoutWithDagre`: skip when geometry is already mostly present, run
the try body otherwise; a transient error is swallowed silently, any other
error becomes a non-fatal console warning (second component), and in every
case the element list reached so far is returned — never an exception. -/
def layoutWithDagre (fuel : Nat) (els : Store) (cfg : LayoutConfig)
    (orc : Oracle) : Store × List String :=
  if skipCond els then (els, [])
  else
    match layoutTry fuel els cfg orc with
    | (st, none) => (st, [])
    | (st, some m) => if isTransientMsg m then (st, []) else (st, [m])

/-- Opening brace character (written by code to keep brace pairing out of
character literals). -/
def lbraceC : Char := Char.ofNat 123

/-- Closing brace character. -/
def rbraceC : Char := Char.ofNat 125

/-- Double-quote character. -/
def quoteC : Char := Char.ofNat 34

/-- Backslash character. -/
def backslashC : Char := Char.ofNat 92

/-- Modelled from the spec: the character scan of
`parseCompactExcalidrawStreaming` (its source file,
`excalidraw-converter.ts`, is not part of the provided sources; §4.1 of the
spec defines it).  Walks the text after the opening `[` of the element
array tracking string/escape state and brace depth; each object whose
braces close contributes its text, a `]` at depth zero marks the array
complete, and anything trailing or malformed is dropped without error.
Arguments: remaining characters, brace depth, in-string flag, escape flag,
current object buffer, completed objects. -/
def scanElements : List Char → Nat → Bool → Bool → List Char → List String →
    List String × Bool
  | [], _, _, _, _, acc => (acc, false)
  | c :: rest, depth, inStr, esc, buf, acc =>
      let push := if 0 < depth then buf ++ [c] else buf
      if inStr then
        if esc then scanElements rest depth true false push acc
        else if c = backslashC then scanElements rest depth true true push acc
        else if c = quoteC then scanElements rest depth false false push acc
        else scanElements rest depth true false push acc
      else if c = quoteC then scanElements rest depth true false push acc
      else if c = lbraceC then
        if depth = 0 then scanElements rest 1 false false [c] acc
        else scanElements rest (depth + 1) false false push acc
      else if c = rbraceC then
        if depth = 0 then scanElements rest 0 false false buf acc
        else if depth = 1 then
          scanElements rest 0 false false [] (acc ++ [String.mk (buf ++ [c])])
        else scanElements rest (depth - 1) false false push acc
      else if c = ']' ∧ depth = 0 then (acc, true)
      else scanElements rest depth false false push acc

/-- Modelled from the spec: `parseCompactExcalidrawStreaming` — given any
prefix of a `{"e": [...]}` wrapper or of a bare element array, return the
ordered texts of the objects that are already complete, plus whether the
array has been closed; it is a total function of the input string (never a
fatal error), and a text with no closed object yields the empty list. -/
def parseCompactExcalidrawStreaming (s : String) : List String × Bool :=
  match s.toList.dropWhile (fun c => c ≠ '[') with
  | [] => ([], false)
  | _ :: rest => scanElements rest 0 false false [] []

/-! ### Store lemmas -/

theorem getById_some_id {st : Store} {id : String} {e : CompactElement}
    (h : getById st id = some e) : e.i = id := by
  have := List.find?_some h
  simpa using this

theorem getById_updateById (st : Store) (id : String)
    (f : CompactElement → CompactElement) (hfi : ∀ e, (f e).i = e.i) (j : String) :
    getById (updateById st id f) j =
      if j = id then (getById st id).map f else getById st j := by
  induction st with
  | nil => simp [updateById, getById]
  | cons e rest ih =>
      by_cases hei : e.i = id
      · simp only [updateById, if_pos hei, getById, List.find?]
        by_cases hji : j = id
        · subst hji
          simp [hfi e, hei, getById, List.find?]
        · have : ¬ ((f e).i = j) := by rw [hfi e, hei]; exact fun h => hji h.symm
          have he : ¬ (e.i = j) := by rw [hei]; exact fun h => hji h.symm
          simp [this, he, hji, getById, List.find?]
      · simp only [updateById, if_neg hei, getById, List.find?]
        by_cases hej : e.i = j
        · by_cases hji : j = id
          · exact absurd (hej.trans hji) hei
          · simp [hej, hji, getById, List.find?]
        · simp only [getById] at ih
          simp [hej, hei, ih, getById]

theorem getById_updateById_ne (st : Store) (id : String)
    (f : CompactElement → CompactElement) (hfi : ∀ e, (f e).i = e.i) {j : String}
    (hne : j ≠ id) : getById (updateById st id f) j = getById st j := by
  rw [getById_updateById st id f hfi j, if_neg hne]

theorem getById_updateById_self (st : Store) (id : String)
    (f : CompactElement → CompactElement) (hfi : ∀ e, (f e).i = e.i) :
    getById (updateById st id f) id = (getById st id).map f := by
  rw [getById_updateById st id f hfi id, if_pos rfl]

/-! ### Forall₂ transport -/

theorem forall₂_trans {R : CompactElement → CompactElement → Prop}
    (htrans : ∀ a b c, R a b → R b c → R a c) :
    ∀ {l1 l2 l3 : Store}, List.Forall₂ R l1 l2 → List.Forall₂ R l2 l3 →
      List.Forall₂ R l1 l3 := by
  intro l1 l2 l3 h12 h23
  induction h12 generalizing l3 with
  | nil => cases h23; exact List.Forall₂.nil
  | cons hab h ih =>
      cases h23 with
      | cons hbc h' => exact List.Forall₂.cons (htrans _ _ _ hab hbc) (ih h')

theorem forall₂_refl {R : CompactElement → CompactElement → Prop}
    (hrefl : ∀ a, R a a) (l : Store) : List.Forall₂ R l l := by
  induction l with
  | nil => exact List.Forall₂.nil
  | cons e rest ih => exact List.Forall₂.cons (hrefl e) ih

/-- If related elements share ids and agree on a projection `g`, then the
`getById` results agree on `g`. -/
theorem getById_proj {R : CompactElement → CompactElement → Prop}
    {α : Type} (g : CompactElement → α)
    (hi : ∀ a b, R a b → a.i = b.i) (hg : ∀ a b, R a b → g a = g b) :
    ∀ {l1 l2 : Store}, List.Forall₂ R l1 l2 → ∀ id,
      (getById l1 id).map g = (getById l2 id).map g := by
  intro l1 l2 h id
  induction h with
  | nil => rfl
  | cons hab h ih =>
      rename_i a b l1' l2'
      by_cases hai : a.i = id
      · have hbi : b.i = id := (hi a b hab) ▸ hai
        simp [getById, List.find?, hai, hbi, hg a b hab]
      · have hbi : ¬ (b.i = id) := fun hc => hai ((hi a b hab) ▸ hc)
        simpa [getById, List.find?, hai, hbi] using ih

theorem updateById_forall₂ {R : CompactElement → CompactElement → Prop}
    (hrefl : ∀ a, R a a) (f : CompactElement → CompactElement)
    (hf : ∀ e, R e (f e)) (st : Store) (id : String) :
    List.Forall₂ R st (updateById st id f) := by
  induction st with
  | nil => exact List.Forall₂.nil
  | cons e rest ih =>
      by_cases hei : e.i = id
      · simpa [updateById, hei] using List.Forall₂.cons (hf e) (forall₂_refl hrefl rest)
      · simpa [updateById, hei] using List.Forall₂.cons (hrefl e) ih

/-! ### Structure-preservation relations

Every mutation the engine performs touches only the geometry fields
`x`,`y`,`w`,`h`; ids, types and `ch` lists are never written.  `presRel`
captures that; `shiftRel` additionally records that
`shiftElementAndDescendants` never writes `w` or `h`. -/

def presRel (a b : CompactElement) : Prop :=
  a.i = b.i ∧ a.t = b.t ∧ a.ch = b.ch

def shiftRel (a b : CompactElement) : Prop :=
  presRel a b ∧ a.w = b.w ∧ a.h = b.h

/-- `shiftRel` strengthened for vertical-only shifts (`dx = 0`), which also
preserve the effective x coordinate `x ?? 0`. -/
def shiftRelY (a b : CompactElement) : Prop :=
  shiftRel a b ∧ a.x.getD 0 = b.x.getD 0

theorem presRel_refl (a : CompactElement) : presRel a a := ⟨rfl, rfl, rfl⟩

theorem presRel_trans (a b c : CompactElement) (h1 : presRel a b)
    (h2 : presRel b c) : presRel a c :=
  ⟨h1.1.trans h2.1, h1.2.1.trans h2.2.1, h1.2.2.trans h2.2.2⟩

theorem shiftRel_refl (a : CompactElement) : shiftRel a a :=
  ⟨presRel_refl a, rfl, rfl⟩

theorem shiftRel_trans (a b c : CompactElement) (h1 : shiftRel a b)
    (h2 : shiftRel b c) : shiftRel a c :=
  ⟨presRel_trans a b c h1.1 h2.1, h1.2.1.trans h2.2.1, h1.2.2.trans h2.2.2⟩

theorem shiftRelY_refl (a : CompactElement) : shiftRelY a a :=
  ⟨shiftRel_refl a, rfl⟩

theorem shiftRelY_trans (a b c : CompactElement) (h1 : shiftRelY a b)
    (h2 : shiftRelY b c) : shiftRelY a c :=
  ⟨shiftRel_trans a b c h1.1 h2.1, h1.2.trans h2.2⟩

theorem presRel_shiftGeom (dx dy : Int) (e : CompactElement) :
    presRel e (shiftGeom dx dy e) := ⟨rfl, rfl, rfl⟩

theorem shiftRel_shiftGeom (dx dy : Int) (e : CompactElement) :
    shiftRel e (shiftGeom dx dy e) := ⟨presRel_shiftGeom dx dy e, rfl, rfl⟩

theorem shiftRelY_shiftGeom (dy : Int) (e : CompactElement) :
    shiftRelY e (shiftGeom 0 dy e) := by
  refine ⟨shiftRel_shiftGeom 0 dy e, ?_⟩
  simp [shiftGeom]

theorem chOf_eq {R : CompactElement → CompactElement → Prop}
    (hi : ∀ a b, R a b → a.i = b.i) (hch : ∀ a b, R a b → a.ch = b.ch)
    {l1 l2 : Store} (h : List.Forall₂ R l1 l2) (id : String) :
    chOf l1 id = chOf l2 id := by
  have hp := getById_proj (fun e => e.ch) hi hch h id
  unfold chOf
  cases h1 : getById l1 id <;> cases h2 : getById l2 id <;>
    simp [h1, h2] at hp ⊢
  rw [hp]

/-- The generic structure lemma for the child loop: if the recursive call
preserves a relation between stores, so does the whole loop. -/
theorem shiftChildren_rel {R : CompactElement → CompactElement → Prop}
    (hrefl : ∀ a, R a a) (htrans : ∀ a b c, R a b → R b c → R a c)
    (rec : Store → String → Store × Bool)
    (hrec : ∀ st c, List.Forall₂ R st (rec st c).1) :
    ∀ (ids : List String) (st : Store),
      List.Forall₂ R st (shiftChildren rec st ids).1 := by
  intro ids
  induction ids with
  | nil => intro st; simp only [shiftChildren]; exact forall₂_refl hrefl st
  | cons c cs ih =>
      intro st
      simp only [shiftChildren]
      cases hgb : getById st c with
      | none => exact ih st
      | some e =>
          cases hs : rec st c with
          | mk st1 flag =>
              have hrel : List.Forall₂ R st st1 := by
                have := hrec st c
                rwa [hs] at this
              cases flag with
              | true => exact forall₂_trans htrans hrel (ih st1)
              | false => exact hrel

/-- The generic structure lemma for `shiftElementAndDescendants`: any
reflexive, transitive relation that accommodates `shiftGeom dx dy` relates
the input store to the output store. -/
theorem shift_rel {R : CompactElement → CompactElement → Prop} (dx dy : Int)
    (hrefl : ∀ a, R a a) (htrans : ∀ a b c, R a b → R b c → R a c)
    (hshift : ∀ e, R e (shiftGeom dx dy e)) :
    ∀ (fuel : Nat) (st : Store) (id : String),
      List.Forall₂ R st (shiftElementAndDescendants fuel st id dx dy).1 := by
  intro fuel
  induction fuel with
  | zero =>
      intro st id
      simp only [shiftElementAndDescendants]
      exact forall₂_refl hrefl st
  | succ n ihn =>
      intro st id
      simp only [shiftElementAndDescendants]
      exact forall₂_trans htrans
        (updateById_forall₂ hrefl (shiftGeom dx dy) hshift st id)
        (shiftChildren_rel hrefl htrans _ (fun st2 c => ihn st2 c) _ _)

/-- The set of ids `shiftElementAndDescendants` can reach (and therefore
move) within a given recursion depth: the start id at depth ≥ 1, plus
anything reachable through a child's subtree one level deeper. -/
def touchedWithin : Nat → Store → String → String → Bool
  | 0, _, _, _ => false
  | n + 1, st, a, b =>
      decide (a = b) || (chOf st a).any (fun c => touchedWithin n st c b)

theorem touchedWithin_eq {R : CompactElement → CompactElement → Prop}
    (hi : ∀ a b, R a b → a.i = b.i) (hch : ∀ a b, R a b → a.ch = b.ch)
    {l1 l2 : Store} (h : List.Forall₂ R l1 l2) :
    ∀ n a b, touchedWithin n l1 a b = touchedWithin n l2 a b := by
  intro n
  induction n with
  | zero => intro a b; rfl
  | succ m ih =>
      intro a b
      have hfun : (fun c => touchedWithin m l1 c b) =
          (fun c => touchedWithin m l2 c b) := funext fun c => ih c b
      simp only [touchedWithin, chOf_eq hi hch h a, hfun]

theorem touchedWithin_mono {st : Store} {a b : String} :
    ∀ {m n : Nat}, m ≤ n → touchedWithin m st a b = true →
      touchedWithin n st a b = true := by
  suffices hstep : ∀ k (st : Store) a b, touchedWithin k st a b = true →
      touchedWithin (k + 1) st a b = true by
    intro m n hle h
    induction hle with
    | refl => exact h
    | step h2 ih => exact hstep _ _ _ _ ih
  intro k
  induction k with
  | zero => intro st a b h; simp [touchedWithin] at h
  | succ m ih =>
      intro st a b h
      rw [touchedWithin] at h
      rw [touchedWithin]
      rw [Bool.or_eq_true, decide_eq_true_eq, List.any_eq_true] at h ⊢
      rcases h with h | ⟨c, hc, hct⟩
      · exact Or.inl h
      · exact Or.inr ⟨c, hc, ih _ _ _ hct⟩

theorem touchedWithin_antitone {st : Store} {a b : String} {m n : Nat}
    (hle : m ≤ n) (h : touchedWithin n st a b = false) :
    touchedWithin m st a b = false := by
  cases hm : touchedWithin m st a b with
  | false => rfl
  | true =>
      have hc := touchedWithin_mono hle hm
      rw [h] at hc
      exact absurd hc Bool.false_ne_true

/-- An element not reachable within the recursion depth keeps its exact
store entry across `shiftElementAndDescendants` (and across the child loop,
whose recursive call is the shift one level shallower). -/
theorem shift_untouched_pair (dx dy : Int) :
    ∀ fuel : Nat,
      (∀ st a b, touchedWithin fuel st a b = false →
        getById (shiftElementAndDescendants fuel st a dx dy).1 b = getById st b) ∧
      (∀ (ids : List String) (st : Store) (b : String),
        (∀ c ∈ ids, touchedWithin fuel st c b = false) →
        getById (shiftChildren
          (fun st2 c => shiftElementAndDescendants fuel st2 c dx dy)
          st ids).1 b = getById st b) := by
  intro fuel
  induction fuel with
  | zero =>
      have h2 : ∀ (ids : List String) (st : Store) (b : String),
          (∀ c ∈ ids, touchedWithin 0 st c b = false) →
          getById (shiftChildren
            (fun st2 c => shiftElementAndDescendants 0 st2 c dx dy)
            st ids).1 b = getById st b := by
        intro ids
        induction ids with
        | nil => intro st b _; simp only [shiftChildren]
        | cons c cs ih =>
            intro st b hcs
            simp only [shiftChildren]
            cases hgb : getById st c with
            | none =>
                exact ih st b (fun d hd => hcs d (List.mem_cons_of_mem _ hd))
            | some e => simp only [shiftElementAndDescendants]
      exact ⟨fun st a b _ => by simp only [shiftElementAndDescendants], h2⟩
  | succ n ihn =>
      have h1 : ∀ st a b, touchedWithin (n + 1) st a b = false →
          getById (shiftElementAndDescendants (n + 1) st a dx dy).1 b =
            getById st b := by
        intro st a b htb
        rw [touchedWithin, Bool.or_eq_false_iff, decide_eq_false_iff_not,
          List.any_eq_false] at htb
        obtain ⟨hab, hcs0⟩ := htb
        have hcs : ∀ c ∈ chOf st a, touchedWithin n st c b = false :=
          fun c hc => Bool.eq_false_iff.mpr (hcs0 c hc)
        simp only [shiftElementAndDescendants]
        have hrel : List.Forall₂ presRel st (updateById st a (shiftGeom dx dy)) :=
          updateById_forall₂ presRel_refl (shiftGeom dx dy)
            (presRel_shiftGeom dx dy) st a
        have hch : chOf (updateById st a (shiftGeom dx dy)) a = chOf st a :=
          (chOf_eq (fun a b h => h.1) (fun a b h => h.2.2) hrel a).symm
        have hgb : getById (updateById st a (shiftGeom dx dy)) b = getById st b :=
          getById_updateById_ne st a (shiftGeom dx dy) (fun e => rfl)
            (fun hba => hab hba.symm)
        rw [← hgb]
        apply ihn.2
        intro c hc
        rw [hch] at hc
        rw [← touchedWithin_eq (fun a b h => h.1) (fun a b h => h.2.2) hrel n c b]
        exact hcs c hc
      have h2 : ∀ (ids : List String) (st : Store) (b : String),
          (∀ c ∈ ids, touchedWithin (n + 1) st c b = false) →
          getById (shiftChildren
            (fun st2 c => shiftElementAndDescendants (n + 1) st2 c dx dy)
            st ids).1 b = getById st b := by
        intro ids
        induction ids with
        | nil => intro st b _; simp only [shiftChildren]
        | cons c cs ih =>
            intro st b hcs
            simp only [shiftChildren]
            cases hgb : getById st c with
            | none =>
                exact ih st b (fun d hd => hcs d (List.mem_cons_of_mem _ hd))
            | some e =>
                cases hs : shiftElementAndDescendants (n + 1) st c dx dy with
                | mk st1 flag =>
                    have hgb1 : getById st1 b = getById st b := by
                      have := h1 st c b (hcs c (List.mem_cons_self c cs))
                      rwa [hs] at this
                    have hrel : List.Forall₂ presRel st st1 := by
                      have := shift_rel dx dy presRel_refl presRel_trans
                        (presRel_shiftGeom dx dy) (n + 1) st c
                      rwa [hs] at this
                    cases flag with
                    | true =>
                        rw [← hgb1]
                        apply ih st1 b
                        intro d hd
                        rw [← touchedWithin_eq (fun a b h => h.1)
                          (fun a b h => h.2.2) hrel (n + 1) d b]
                        exact hcs d (List.mem_cons_of_mem _ hd)
                    | false => exact hgb1
      exact ⟨h1, h2⟩

theorem shift_untouched (dx dy : Int) (fuel : Nat) {st : Store} {a b : String}
    (h : touchedWithin fuel st a b = false) :
    getById (shiftElementAndDescendants fuel st a dx dy).1 b = getById st b :=
  (shift_untouched_pair dx dy fuel).1 st a b h

/-- The root of a shift call moves by exactly `(dx, dy)` provided the child
recursion never loops back onto the root itself. -/
theorem shift_root (dx dy : Int) (n : Nat) (st : Store) (a : String)
    (hch : ∀ c ∈ chOf st a, touchedWithin n st c a = false) :
    getById (shiftElementAndDescendants (n + 1) st a dx dy).1 a =
      (getById st a).map (shiftGeom dx dy) := by
  simp only [shiftElementAndDescendants]
  have hrel : List.Forall₂ presRel st (updateById st a (shiftGeom dx dy)) :=
    updateById_forall₂ presRel_refl (shiftGeom dx dy) (presRel_shiftGeom dx dy) st a
  have hchq : chOf (updateById st a (shiftGeom dx dy)) a = chOf st a :=
    (chOf_eq (fun a b h => h.1) (fun a b h => h.2.2) hrel a).symm
  have hself : getById (updateById st a (shiftGeom dx dy)) a =
      (getById st a).map (shiftGeom dx dy) :=
    getById_updateById_self st a (shiftGeom dx dy) (fun e => rfl)
  rw [← hself]
  apply (shift_untouched_pair dx dy n).2
  intro c hc
  rw [hchq] at hc
  rw [← touchedWithin_eq (fun a b h => h.1) (fun a b h => h.2.2) hrel n c a]
  exact hch c hc

/-! ### Claims C10, C7, C1, C9 -/

/-- Claim C10: for every non-frame, non-connector element lacking explicit
width/height whose label is absent or empty, the sizing step assigns exactly
width 100 and height 50; and for every label the estimated width is at
least 100. -/
theorem claimC10_default_sizing (el : CompactElement)
    (hw : el.w = none) (hh : el.h = none)
    (hl : el.l = none ∨ el.l = some "")
    (hfr : mapType el.t ≠ "frame") (har : mapType el.t ≠ "arrow") :
    (nodeWidth el = 100 ∧ nodeHeight el = 50) ∧
      ∀ s : String, 100 ≤ calculateTextWidth s := by
  have hlbl : el.l.getD "" = "" := by rcases hl with h | h <;> simp [h]
  constructor
  · constructor
    · simp [nodeWidth, hw, hlbl, calculateTextWidth]
    · simp [nodeHeight, hh, hlbl, calculateNodeHeight]
  · intro s
    by_cases hs : s = ""
    · simp [calculateTextWidth, hs]
    · simp only [calculateTextWidth, if_neg hs]
      exact le_max_left _ _

/-- Witness for C10 at a concrete labelless rectangle. -/
theorem claimC10_witness :
    (nodeWidth { i := "n1", t := "r" } = 100 ∧
      nodeHeight { i := "n1", t := "r" } = 50) ∧
      ∀ s : String, 100 ≤ calculateTextWidth s :=
  claimC10_default_sizing { i := "n1", t := "r" } rfl rfl (Or.inl rfl)
    (by decide) (by decide)

/-- Claim C7: when geometry is already present on more than half of the
non-connector elements (the skip threshold, `nonArrow < 2 * withCoords` with
at least one non-connector element, which the strict inequality forces),
`layoutWithDagre` returns its input unchanged — so a second application to
an output satisfying the threshold changes no element's `x`,`y`,`w`,`h`. -/
theorem claimC7_skip_returns_input (fuel : Nat) (els : Store)
    (cfg : LayoutConfig) (orc : Oracle) (hcond : skipCond els = true) :
    layoutWithDagre fuel els cfg orc = (els, []) := by
  simp [layoutWithDagre, hcond]

/-- Witness for C7: two positioned rectangles satisfy the threshold and are
returned untouched. -/
theorem claimC7_witness :
    layoutWithDagre 9
      [{ i := "p", t := "r", x := some 3, y := some 4 },
       { i := "q", t := "r", x := some 7, y := some 8 }] {}
      (fun _ => Except.error "never reached") =
      ([{ i := "p", t := "r", x := some 3, y := some 4 },
        { i := "q", t := "r", x := some 7, y := some 8 }], []) :=
  claimC7_skip_returns_input 9 _ {} _ (by decide)

/-- Claim C1: if the rank-assignment step (the dagre call) throws, the
engine never propagates the exception: a message matching the transient
patterns (`weight`/`rank`/`undefined`) is swallowed silently, any other
message becomes one non-fatal warning, and in both cases the element list
is returned with the geometry it already had. -/
theorem claimC1_rank_errors_never_propagate (fuel : Nat) (els : Store)
    (cfg : LayoutConfig) (orc : Oracle) (m : String)
    (hskip : skipCond els = false)
    (hnodes : buildNodes els ≠ [])
    (horc : orc ⟨cfg, buildNodes els, buildEdges els (buildNodes els)⟩ =
      Except.error m) :
    layoutWithDagre fuel els cfg orc =
      (els, if isTransientMsg m then [] else [m]) := by
  have hlen : ¬ (buildNodes els).length = 0 := by
    simpa [List.length_eq_zero] using hnodes
  have htry : layoutTry fuel els cfg orc = (els, some m) := by
    simp only [layoutTry, if_neg hlen, horc]
  simp only [layoutWithDagre, hskip, Bool.false_eq_true, if_false, htry]
  cases h : isTransientMsg m <;> simp

/-- Witness for C1: a single-node diagram whose rank step throws a
non-transient error is returned unchanged with exactly that warning. -/
theorem claimC1_witness :
    layoutWithDagre 9 [{ i := "n1", t := "r" }] {}
      (fun _ => Except.error "boom") = ([{ i := "n1", t := "r" }], ["boom"]) := by
  have h := claimC1_rank_errors_never_propagate 9 [{ i := "n1", t := "r" }] {}
    (fun _ => Except.error "boom") "boom" (by decide) (by decide) rfl
  rw [h]
  have ht : isTransientMsg "boom" = false := by decide
  rw [ht]
  simp

/-- Claim C9 (spec-modelled, the parser's source file is outside `src/`):
the streaming parser is a total function of the input string — here by
construction, as a structurally recursive scan — and yields zero elements
(not an error) on the empty string, on non-JSON garbage, and on input cut
mid-key, while still recovering every closed object of well-formed input. -/
theorem claimC9_parser_total :
    parseCompactExcalidrawStreaming "" = ([], false) ∧
    parseCompactExcalidrawStreaming "][ \x7d garbage \x7b\"" = ([], false) ∧
    parseCompactExcalidrawStreaming "[\x7b\"t\":\"r\",\"i" = ([], false) ∧
    parseCompactExcalidrawStreaming "[\x7b\"t\":\"r\"\x7d,\x7b\"t\":\"el\"\x7d]" =
      (["\x7b\"t\":\"r\"\x7d", "\x7b\"t\":\"el\"\x7d"], true) := by
  refine ⟨by decide, by decide, by decide, by decide⟩

/-! ### Claim C2 (reflow) -/

/-- A frame in the documented wire format (`t = "fr"`) with six non-connector
children lying in one visual row — exactly the situation the wide-frame
reflow is meant to fix. -/
def c2els : Store :=
  [{ i := "F", t := "fr", ch := some ["c1", "c2", "c3", "c4", "c5", "c6"] },
   { i := "c1", t := "r", x := some 0, y := some 0, w := some 100, h := some 50 },
   { i := "c2", t := "r", x := some 160, y := some 0, w := some 100, h := some 50 },
   { i := "c3", t := "r", x := some 320, y := some 0, w := some 100, h := some 50 },
   { i := "c4", t := "r", x := some 480, y := some 0, w := some 100, h := some 50 },
   { i := "c5", t := "r", x := some 640, y := some 0, w := some 100, h := some 50 },
   { i := "c6", t := "r", x := some 800, y := some 0, w := some 100, h := some 50 }]

/-- Claim C2, evaluated at the failing input: the frame (type code `fr`,
mapped to `frame` by `TYPE_MAP`) has six single-row non-connector children,
yet `reflowFrameChildren` — whose selector is the raw comparison
`el.t === 'f'`, matched by no frame type code — moves nothing: the store is
returned unchanged instead of being re-arranged into the
`ceil(sqrt(6)·1.5) = 4`-column grid the claim (and the function's own
documentation) describe. -/
theorem claimC2_reflow_failing_input_eval :
    mapType "fr" = "frame" ∧
    ((chOf c2els "F").filterMap (getById c2els)).length = 6 ∧
    (((chOf c2els "F").filterMap (getById c2els)).all
      (fun c => mapType c.t ≠ "arrow" ∧ c.y.getD 0 = 0)) = true ∧
    ceilSqrtScaled 6 = 4 ∧
    reflowFrameChildren 99 c2els = (c2els, true) := by
  refine ⟨by decide, by decide, by decide, by decide, ?_⟩
  decide

/-! ### Claim C3 (edge synthesis) -/

def c3A : CompactElement := { i := "A", t := "r" }

def c3B : CompactElement := { i := "B", t := "r" }

/-- A connector whose `ei` dangles: it resolves to no edge. -/
def c3X : CompactElement := { i := "X", t := "a", si := some "A", ei := some "Z" }

def c3els : Store := [c3A, c3B, c3X]

/-- Counterexample to claim C3 as stated: in `c3els` zero connectors
resolve to graph nodes, `A`,`B` are consecutive top-level non-frame
elements, yet the engine synthesizes nothing (the graph has no edges),
because the code keys synthesis on `arrows.length === 0` — the *presence*
of connector elements — not on zero connectors *resolving*. -/
theorem claimC3_counterexample :
    (c3els.filter (fun el => mapType el.t = "arrow" ∧
      (arrowEdge (buildNodes c3els) el).isSome)).length = 0 ∧
    rootElements c3els = [c3A, c3B] ∧
    mapType c3A.t ≠ "frame" ∧ mapType c3B.t ≠ "frame" ∧
    buildEdges c3els (buildNodes c3els) = [] := by
  refine ⟨by decide, by decide, by decide, by decide, by decide⟩

/-- The synthesized chain the claim describes (claim-side definition, to be
compared with `buildEdges`): consecutive top-level elements in original
order, skipping any pair with a frame endpoint. -/
def specChainEdges (els : Store) : List (String × String) :=
  let roots := rootElements els
  (roots.zip roots.tail).filterMap (fun p =>
    if mapType p.1.t ≠ "frame" ∧ mapType p.2.t ≠ "frame" then
      some (p.1.i, p.2.i)
    else none)

theorem arrowFold_no_arrows (ns : List (String × Int × Int)) :
    ∀ (l : Store) (acc : List (String × String)),
      (∀ el ∈ l, mapType el.t ≠ "arrow") →
      l.foldl
        (fun es el =>
          if mapType el.t ≠ "arrow" then es
          else match arrowEdge ns el with
            | some (s, e) => setEdge es s e
            | none => es)
        acc = acc := by
  intro l
  induction l with
  | nil => intro acc _; rfl
  | cons b rest ih =>
      intro acc hna
      have hb : mapType b.t ≠ "arrow" := hna b (List.mem_cons_self b rest)
      simp only [List.foldl_cons, if_pos hb]
      exact ih acc (fun el hel => hna el (List.mem_cons_of_mem _ hel))

theorem hasNode_setNode_self (ns : List (String × Int × Int)) (id : String)
    (w h : Int) : hasNode (setNode ns id w h) id = true := by
  unfold setNode hasNode
  by_cases hc : ns.any (fun n => n.1 = id)
  · rw [if_pos hc]
    rw [List.any_eq_true] at hc ⊢
    obtain ⟨n, hn, hni⟩ := hc
    refine ⟨(id, w, h), List.mem_map.mpr ⟨n, hn, ?_⟩, by simp⟩
    simp only [decide_eq_true_eq] at hni
    rw [if_pos hni]
  · rw [if_neg hc]
    rw [List.any_eq_true]
    exact ⟨(id, w, h), List.mem_append_right _ (List.mem_singleton.mpr rfl), by simp⟩

theorem hasNode_setNode_mono (ns : List (String × Int × Int)) (id j : String)
    (w h : Int) (hj : hasNode ns j = true) :
    hasNode (setNode ns id w h) j = true := by
  unfold setNode
  unfold hasNode at hj ⊢
  rw [List.any_eq_true] at hj
  obtain ⟨n, hn, hnj⟩ := hj
  simp only [decide_eq_true_eq] at hnj
  by_cases hc : ns.any (fun n => n.1 = id)
  · rw [if_pos hc, List.any_eq_true]
    by_cases hni : n.1 = id
    · exact ⟨(id, w, h), List.mem_map.mpr ⟨n, hn, by rw [if_pos hni]⟩,
        by simp [hnj ▸ hni.symm, hni ▸ hnj]⟩
    · exact ⟨n, List.mem_map.mpr ⟨n, hn, by rw [if_neg hni]⟩, by simp [hnj]⟩
  · rw [if_neg hc, List.any_eq_true]
    exact ⟨n, List.mem_append_left _ hn, by simp [hnj]⟩

theorem nodeFold_mono (l : Store) :
    ∀ (acc : List (String × Int × Int)) (j : String), hasNode acc j = true →
      hasNode
        (l.foldl
          (fun ns el =>
            if mapType el.t = "arrow" ∨ mapType el.t = "frame" then ns
            else setNode ns el.i (nodeWidth el) (nodeHeight el))
          acc) j = true := by
  induction l with
  | nil => intro acc j hj; exact hj
  | cons b rest ih =>
      intro acc j hj
      simp only [List.foldl_cons]
      by_cases hb : mapType b.t = "arrow" ∨ mapType b.t = "frame"
      · rw [if_pos hb]; exact ih acc j hj
      · rw [if_neg hb]
        exact ih _ j (hasNode_setNode_mono acc b.i j _ _ hj)

/-- Every non-arrow, non-frame element of the list is a graph node. -/
theorem buildNodes_hasNode {els : Store} {el : CompactElement}
    (hmem : el ∈ els) (har : mapType el.t ≠ "arrow")
    (hfr : mapType el.t ≠ "frame") :
    hasNode (buildNodes els) el.i = true := by
  unfold buildNodes
  revert hmem
  suffices h : ∀ acc, el ∈ els →
      hasNode
        (els.foldl
          (fun ns el =>
            if mapType el.t = "arrow" ∨ mapType el.t = "frame" then ns
            else setNode ns el.i (nodeWidth el) (nodeHeight el))
          acc) el.i = true from h []
  induction els with
  | nil => intro acc h; cases h
  | cons b rest ih =>
      intro acc hmem
      simp only [List.foldl_cons]
      rcases List.mem_cons.mp hmem with hb | hrest
      · subst hb
        rw [if_neg (by push_neg; exact ⟨har, hfr⟩)]
        exact nodeFold_mono rest _ el.i (hasNode_setNode_self acc el.i _ _)
      · by_cases hb : mapType b.t = "arrow" ∨ mapType b.t = "frame"
        · rw [if_pos hb]; exact ih acc hrest
        · rw [if_neg hb]; exact ih _ hrest

theorem setEdge_mem (es : List (String × String)) (v w : String) :
    setEdge es v w = if (v, w) ∈ es then es else es ++ [(v, w)] := by
  unfold setEdge
  by_cases hc : (v, w) ∈ es
  · rw [if_pos hc, if_pos]
    rw [List.any_eq_true]
    exact ⟨(v, w), hc, by simp⟩
  · rw [if_neg hc, if_neg]
    rw [List.any_eq_true]
    rintro ⟨q, hq, hqe⟩
    simp only [Bool.and_eq_true, decide_eq_true_eq] at hqe
    exact hc (by rwa [show q = (v, w) from Prod.ext hqe.1 hqe.2] at hq)

theorem synthFold (ns : List (String × Int × Int)) :
    ∀ (roots : Store) (acc : List (String × String)),
      (roots.map (fun e => e.i)).Nodup →
      (∀ p ∈ acc, ¬ p.1 ∈ roots.map (fun e => e.i)) →
      (∀ r ∈ roots, mapType r.t ≠ "frame" → hasNode ns r.i = true) →
      (roots.zip roots.tail).foldl
        (fun es p =>
          if mapType p.1.t ≠ "frame" ∧ mapType p.2.t ≠ "frame" ∧
              hasNode ns p.1.i ∧ hasNode ns p.2.i then
            setEdge es p.1.i p.2.i
          else es)
        acc
      = acc ++ (roots.zip roots.tail).filterMap (fun p =>
          if mapType p.1.t ≠ "frame" ∧ mapType p.2.t ≠ "frame" then
            some (p.1.i, p.2.i)
          else none) := by
  intro roots
  induction roots with
  | nil => intro acc _ _ _; simp
  | cons r0 rest ih =>
      intro acc hnd hacc hn
      cases rest with
      | nil => simp
      | cons r1 rest' =>
          rw [List.map_cons, List.nodup_cons] at hnd
          obtain ⟨hr0out, hnd'⟩ := hnd
          simp only [List.tail_cons, List.zip_cons_cons, List.foldl_cons,
            List.filterMap_cons]
          have hn' : ∀ r ∈ r1 :: rest', mapType r.t ≠ "frame" →
              hasNode ns r.i = true :=
            fun r hr => hn r (List.mem_cons_of_mem _ hr)
          by_cases hcond : mapType r0.t ≠ "frame" ∧ mapType r1.t ≠ "frame"
          · have h0 : hasNode ns r0.i = true :=
              hn r0 (List.mem_cons_self _ _) hcond.1
            have h1 : hasNode ns r1.i = true :=
              hn r1 (List.mem_cons_of_mem _ (List.mem_cons_self _ _)) hcond.2
            rw [if_pos ⟨hcond.1, hcond.2, h0, h1⟩, if_pos hcond]
            have hnew : ¬ ((r0.i, r1.i) ∈ acc) := fun hin =>
              hacc (r0.i, r1.i) hin (List.mem_map.mpr ⟨r0, List.mem_cons_self _ _, rfl⟩)
            rw [setEdge_mem, if_neg hnew]
            have hacc' : ∀ p ∈ acc ++ [(r0.i, r1.i)],
                ¬ p.1 ∈ (r1 :: rest').map (fun e => e.i) := by
              intro p hp
              rcases List.mem_append.mp hp with hp1 | hp2
              · exact fun hin => hacc p hp1 (List.mem_cons_of_mem _ hin)
              · rw [List.mem_singleton.mp hp2]
                exact hr0out
            have ihx := ih (acc ++ [(r0.i, r1.i)]) hnd' hacc' hn'
            simp only [List.tail_cons] at ihx
            rw [ihx]
            simp
          · have hif : ¬ (mapType r0.t ≠ "frame" ∧ mapType r1.t ≠ "frame" ∧
                hasNode ns r0.i ∧ hasNode ns r1.i) := by
              intro hc; exact hcond ⟨hc.1, hc.2.1⟩
            rw [if_neg hif, if_neg hcond]
            have hacc' : ∀ p ∈ acc, ¬ p.1 ∈ (r1 :: rest').map (fun e => e.i) :=
              fun p hp hin => hacc p hp (List.mem_cons_of_mem _ hin)
            have ihx := ih acc hnd' hacc' hn'
            simp only [List.tail_cons] at ihx
            rw [ihx]

/-- Claim C3, amended: when the element list contains no connector
elements at all, the built graph's edges are exactly the chain of
consecutive top-level elements in original order, skipping any pair in
which either endpoint is a frame. -/
theorem claimC3_amended (els : Store)
    (hnoarrow : ∀ el ∈ els, mapType el.t ≠ "arrow")
    (hnodup : (els.map (fun e => e.i)).Nodup) :
    buildEdges els (buildNodes els) = specChainEdges els := by
  unfold buildEdges specChainEdges
  have hfilter : els.filter (fun el => mapType el.t = "arrow") = [] := by
    rw [List.filter_eq_nil]
    intro el hel
    simpa using hnoarrow el hel
  rw [arrowFold_no_arrows _ els [] hnoarrow, hfilter]
  simp only [List.length_nil, if_pos rfl]
  have hroots_nd : ((rootElements els).map (fun e => e.i)).Nodup := by
    apply List.Nodup.sublist _ hnodup
    exact List.Sublist.map _ (List.filter_sublist els)
  have hn : ∀ r ∈ rootElements els, mapType r.t ≠ "frame" →
      hasNode (buildNodes els) r.i = true := by
    intro r hr hfr
    have hmem : r ∈ els := List.mem_of_mem_filter hr
    exact buildNodes_hasNode hmem (hnoarrow r hmem) hfr
  rw [synthFold (buildNodes els) (rootElements els) [] hroots_nd
    (fun p hp => absurd hp (List.not_mem_nil p)) hn]
  simp

/-- Witness for the amended C3 at a concrete three-element, no-connector
list: two rectangles and a frame, chained as `A → B` only. -/
theorem claimC3_witness :
    buildEdges [c3A, c3B, { i := "F", t := "fr", ch := some ["Q"] }]
        (buildNodes [c3A, c3B, { i := "F", t := "fr", ch := some ["Q"] }]) =
      specChainEdges [c3A, c3B, { i := "F", t := "fr", ch := some ["Q"] }] :=
  claimC3_amended _ (by decide) (by decide)

/-! ### Claim C4 (traversal termination) -/

/-- Two frames that contain each other: a containment cycle. -/
def cycA : CompactElement := { i := "A", t := "fr", ch := some ["B"] }

def cycB : CompactElement := { i := "B", t := "fr", ch := some ["A"] }

def cycStore : Store := [cycA, cycB]

/-- Termination of a `shiftElementAndDescendants` run: some recursion-depth
budget (JS stack depth) suffices to complete it. -/
def ShiftTerminates (st : Store) (id : String) (dx dy : Int) : Prop :=
  ∃ fuel, (shiftElementAndDescendants fuel st id dx dy).2 = true

/-- The structural facts about `cycStore` that every intermediate state of
a shift run preserves. -/
def CycShape (st : Store) : Prop :=
  chOf st "A" = ["B"] ∧ chOf st "B" = ["A"] ∧
  (getById st "A").isSome = true ∧ (getById st "B").isSome = true

theorem getById_isSome_eq {R : CompactElement → CompactElement → Prop}
    (hi : ∀ a b, R a b → a.i = b.i) {l1 l2 : Store}
    (h : List.Forall₂ R l1 l2) (id : String) :
    (getById l1 id).isSome = (getById l2 id).isSome := by
  have hp := getById_proj (fun _ => (0 : Nat)) hi (fun a b _ => rfl) h id
  cases h1 : getById l1 id <;> cases h2 : getById l2 id <;>
    simp [h1, h2] at hp ⊢

theorem cycShape_transport {st st1 : Store} (h : List.Forall₂ presRel st st1)
    (hc : CycShape st) : CycShape st1 := by
  obtain ⟨h1, h2, h3, h4⟩ := hc
  refine ⟨?_, ?_, ?_, ?_⟩
  · rw [← chOf_eq (fun a b h => h.1) (fun a b h => h.2.2) h "A"]; exact h1
  · rw [← chOf_eq (fun a b h => h.1) (fun a b h => h.2.2) h "B"]; exact h2
  · rw [← getById_isSome_eq (fun a b h => h.1) h "A"]; exact h3
  · rw [← getById_isSome_eq (fun a b h => h.1) h "B"]; exact h4

/-- On the two-frame containment cycle, no recursion-depth budget completes
the shift: the recursion alternates between `A` and `B` forever. -/
theorem shift_cyc_flag_false (dx dy : Int) :
    ∀ (fuel : Nat) (st : Store), CycShape st →
      (shiftElementAndDescendants fuel st "A" dx dy).2 = false ∧
      (shiftElementAndDescendants fuel st "B" dx dy).2 = false := by
  intro fuel
  induction fuel with
  | zero => intro st _; refine ⟨?_, ?_⟩ <;> simp only [shiftElementAndDescendants]
  | succ n ih =>
      intro st hc
      constructor
      · simp only [shiftElementAndDescendants]
        have hrel : List.Forall₂ presRel st (updateById st "A" (shiftGeom dx dy)) :=
          updateById_forall₂ presRel_refl (shiftGeom dx dy) (presRel_shiftGeom dx dy) st "A"
        have hc1 := cycShape_transport hrel hc
        rw [hc1.1]
        simp only [shiftChildren]
        obtain ⟨eB, heB⟩ := Option.isSome_iff_exists.mp hc1.2.2.2
        rw [heB]
        cases hs : shiftElementAndDescendants n
            (updateById st "A" (shiftGeom dx dy)) "B" dx dy with
        | mk st2 flag =>
            have := (ih _ hc1).2
            rw [hs] at this
            simp only at this
            rw [this]
      · simp only [shiftElementAndDescendants]
        have hrel : List.Forall₂ presRel st (updateById st "B" (shiftGeom dx dy)) :=
          updateById_forall₂ presRel_refl (shiftGeom dx dy) (presRel_shiftGeom dx dy) st "B"
        have hc1 := cycShape_transport hrel hc
        rw [hc1.2.1]
        simp only [shiftChildren]
        obtain ⟨eA, heA⟩ := Option.isSome_iff_exists.mp hc1.2.2.1
        rw [heA]
        cases hs : shiftElementAndDescendants n
            (updateById st "B" (shiftGeom dx dy)) "A" dx dy with
        | mk st2 flag =>
            have := (ih _ hc1).1
            rw [hs] at this
            simp only at this
            rw [this]

/-- Counterexample to claim C4 as stated: the shift-descendants traversal
has no visited set, and on a containment cycle (`cycStore`) it never
terminates — no stack budget completes it. -/
theorem claimC4_counterexample : ¬ ShiftTerminates cycStore "A" 10 0 := by
  rintro ⟨fuel, hterm⟩
  have := (shift_cyc_flag_false 10 0 fuel cycStore ⟨rfl, rfl, rfl, rfl⟩).1
  rw [hterm] at this
  exact Bool.false_ne_true this.symm

/-- Claim C4, amended: the frame-depth computation is bounded by its
visited-id set — a revisited id contributes depth 0 without further
recursion, and the function is total on every input including cycles —
while the shift-descendants traversal, which has no visited set, does not
terminate on a containment cycle. -/
theorem claimC4_amended (frames : List CompactElement) (frameId : String)
    (visited : Finset String) (hvis : frameId ∈ visited) :
    getFrameDepth frames frameId visited = 0 ∧
      ¬ ShiftTerminates cycStore "A" 10 0 := by
  constructor
  · rw [getFrameDepth]
    exact dif_pos hvis
  · rintro ⟨fuel, hterm⟩
    have := (shift_cyc_flag_false 10 0 fuel cycStore ⟨rfl, rfl, rfl, rfl⟩).1
    rw [hterm] at this
    exact Bool.false_ne_true this.symm

/-- Witness for the amended C4 at concrete values. -/
theorem claimC4_witness :
    getFrameDepth [] "z" {"z"} = 0 ∧ ¬ ShiftTerminates cycStore "A" 10 0 :=
  claimC4_amended [] "z" {"z"} (by decide)

/-! ### Claim C8 (dangling connector) -/

/-- The connector-edge accumulation step of `buildEdges`. -/
def arrowStep (ns : List (String × Int × Int)) (es : List (String × String))
    (el : CompactElement) : List (String × String) :=
  if mapType el.t ≠ "arrow" then es
  else match arrowEdge ns el with
    | some (s, e) => setEdge es s e
    | none => es

theorem buildEdges_arrowFold (els : Store) (ns : List (String × Int × Int)) :
    els.foldl
      (fun es el =>
        if mapType el.t ≠ "arrow" then es
        else match arrowEdge ns el with
          | some (s, e) => setEdge es s e
          | none => es)
      [] = els.foldl (arrowStep ns) [] := rfl

theorem arrowFold_mem (ns : List (String × Int × Int)) :
    ∀ (l : Store) (acc : List (String × String)) (p : String × String),
      p ∈ l.foldl (arrowStep ns) acc →
      p ∈ acc ∨ ∃ b ∈ l, arrowEdge ns b = some p := by
  intro l
  induction l with
  | nil => intro acc p hp; exact Or.inl hp
  | cons b rest ih =>
      intro acc p hp
      simp only [List.foldl_cons] at hp
      rcases ih (arrowStep ns acc b) p hp with hin | ⟨b2, hb2, he2⟩
      · by_cases hna : mapType b.t ≠ "arrow"
        · rw [show arrowStep ns acc b = acc from by unfold arrowStep; rw [if_pos hna]]
            at hin
          exact Or.inl hin
        · cases hae : arrowEdge ns b with
          | none =>
              rw [show arrowStep ns acc b = acc from by
                unfold arrowStep; rw [if_neg hna, hae]] at hin
              exact Or.inl hin
          | some q =>
              cases q with
              | mk v w =>
                  rw [show arrowStep ns acc b = setEdge acc v w from by
                    unfold arrowStep; rw [if_neg hna, hae]] at hin
                  rw [setEdge_mem] at hin
                  by_cases hq : (v, w) ∈ acc
                  · rw [if_pos hq] at hin; exact Or.inl hin
                  · rw [if_neg hq] at hin
                    rcases List.mem_append.mp hin with h1 | h2
                    · exact Or.inl h1
                    · exact Or.inr ⟨b, List.mem_cons_self _ _,
                        by rw [hae, List.mem_singleton.mp h2]⟩
      · exact Or.inr ⟨b2, List.mem_cons_of_mem _ hb2, he2⟩

/-- Running the connector fold from two accumulators that differ by one
extra edge no later connector re-produces keeps the difference at exactly
one edge. -/
theorem arrowFold_extra (ns : List (String × Int × Int)) (s e : String) :
    ∀ (l : Store) (es es' : List (String × String)),
      (∀ b ∈ l, arrowEdge ns b ≠ some (s, e)) →
      es'.length = es.length + 1 → (s, e) ∈ es' →
      (∀ p : String × String, p ≠ (s, e) → (p ∈ es ↔ p ∈ es')) →
      (l.foldl (arrowStep ns) es').length = (l.foldl (arrowStep ns) es).length + 1 ∧
      (s, e) ∈ l.foldl (arrowStep ns) es' := by
  intro l
  induction l with
  | nil => intro es es' _ hlen hmem _; exact ⟨hlen, hmem⟩
  | cons b rest ih =>
      intro es es' hfresh hlen hmem hiff
      simp only [List.foldl_cons]
      have hfresh' : ∀ b2 ∈ rest, arrowEdge ns b2 ≠ some (s, e) :=
        fun b2 hb2 => hfresh b2 (List.mem_cons_of_mem _ hb2)
      by_cases hna : mapType b.t ≠ "arrow"
      · rw [show arrowStep ns es b = es from by unfold arrowStep; rw [if_pos hna],
          show arrowStep ns es' b = es' from by unfold arrowStep; rw [if_pos hna]]
        exact ih es es' hfresh' hlen hmem hiff
      · cases hae : arrowEdge ns b with
        | none =>
            rw [show arrowStep ns es b = es from by
                unfold arrowStep; rw [if_neg hna, hae],
              show arrowStep ns es' b = es' from by
                unfold arrowStep; rw [if_neg hna, hae]]
            exact ih es es' hfresh' hlen hmem hiff
        | some q =>
            cases q with
            | mk v w =>
                have hvw : (v, w) ≠ (s, e) := by
                  intro hq
                  exact hfresh b (List.mem_cons_self _ _) (by rw [hae, hq])
                rw [show arrowStep ns es b = setEdge es v w from by
                    unfold arrowStep; rw [if_neg hna, hae],
                  show arrowStep ns es' b = setEdge es' v w from by
                    unfold arrowStep; rw [if_neg hna, hae]]
                rw [setEdge_mem, setEdge_mem]
                by_cases hq : (v, w) ∈ es
                · rw [if_pos hq, if_pos ((hiff (v, w) hvw).mp hq)]
                  exact ih es es' hfresh' hlen hmem hiff
                · rw [if_neg hq, if_neg (fun hq2 => hq ((hiff (v, w) hvw).mpr hq2))]
                  apply ih
                  · exact hfresh'
                  · simp [hlen]
                  · exact List.mem_append_left _ hmem
                  · intro p hp
                    constructor
                    · intro hpe
                      rcases List.mem_append.mp hpe with h1 | h2
                      · exact List.mem_append_left _ ((hiff p hp).mp h1)
                      · exact List.mem_append_right _ h2
                    · intro hpe
                      rcases List.mem_append.mp hpe with h1 | h2
                      · exact List.mem_append_left _ ((hiff p hp).mpr h1)
                      · exact List.mem_append_right _ h2

theorem buildNodes_skip_arrow {x : CompactElement} (hx : mapType x.t = "arrow")
    (pre post : Store) :
    buildNodes (pre ++ x :: post) = buildNodes (pre ++ post) := by
  unfold buildNodes
  rw [List.foldl_append, List.foldl_append, List.foldl_cons,
    if_pos (Or.inl hx)]

/-- Claim C8: a connector whose endpoints do not both resolve to graph
nodes contributes no edge — resolving it (say to `s → e`, an edge no other
connector produces) yields a graph with the same nodes and exactly one more
edge — and the layout pass itself is unaffected: the node set all other
elements are laid out from is unchanged. -/
theorem claimC8_dangling_connector (pre post : Store) (a a' : CompactElement)
    (s e : String)
    (ha : mapType a.t = "arrow")
    (ha' : a' = { a with si := some s, ei := some e })
    (hdang : arrowEdge (buildNodes (pre ++ a :: post)) a = none)
    (hok : arrowEdge (buildNodes (pre ++ a :: post)) a' = some (s, e))
    (hfresh : ∀ b ∈ pre ++ post, arrowEdge (buildNodes (pre ++ a :: post)) b ≠
      some (s, e)) :
    buildNodes (pre ++ a' :: post) = buildNodes (pre ++ a :: post) ∧
    (buildEdges (pre ++ a' :: post) (buildNodes (pre ++ a :: post))).length =
      (buildEdges (pre ++ a :: post) (buildNodes (pre ++ a :: post))).length + 1 ∧
    (s, e) ∈ buildEdges (pre ++ a' :: post) (buildNodes (pre ++ a :: post)) := by
  have ha2 : mapType a'.t = "arrow" := by rw [ha']; exact ha
  have hnodes : buildNodes (pre ++ a' :: post) = buildNodes (pre ++ a :: post) := by
    rw [buildNodes_skip_arrow ha2, buildNodes_skip_arrow ha]
  refine ⟨hnodes, ?_⟩
  set ns := buildNodes (pre ++ a :: post) with hns
  have harrlen : ∀ (x : CompactElement), mapType x.t = "arrow" →
      ((pre ++ x :: post).filter (fun el => mapType el.t = "arrow")).length ≠ 0 := by
    intro x hx h0
    rw [List.length_eq_zero, List.filter_eq_nil] at h0
    exact h0 x (List.mem_append_right _ (List.mem_cons_self _ _)) (by simp [hx])
  unfold buildEdges
  rw [buildEdges_arrowFold, buildEdges_arrowFold]
  simp only [if_neg (harrlen a ha), if_neg (harrlen a' ha2)]
  rw [List.foldl_append, List.foldl_append, List.foldl_cons, List.foldl_cons]
  set Epre := pre.foldl (arrowStep ns) [] with hEpre
  have hstepa : arrowStep ns Epre a = Epre := by
    unfold arrowStep
    rw [if_neg (by simp [ha]), hdang]
  have hstepa' : arrowStep ns Epre a' = Epre ++ [(s, e)] := by
    unfold arrowStep
    rw [if_neg (by simp [ha2]), hok]
    show setEdge Epre s e = Epre ++ [(s, e)]
    rw [setEdge_mem, if_neg]
    intro hin
    rcases arrowFold_mem ns pre [] (s, e) hin with h1 | ⟨b, hb, he⟩
    · cases h1
    · exact hfresh b (List.mem_append_left _ hb) he
  rw [hstepa, hstepa']
  have hfresh' : ∀ b ∈ post, arrowEdge ns b ≠ some (s, e) :=
    fun b hb => hfresh b (List.mem_append_right _ hb)
  have := arrowFold_extra ns s e post Epre (Epre ++ [(s, e)]) hfresh'
    (by simp) (List.mem_append_right _ (List.mem_singleton.mpr rfl))
    (fun p hp => ⟨fun h1 => List.mem_append_left _ h1,
      fun h1 => by
        rcases List.mem_append.mp h1 with h2 | h3
        · exact h2
        · exact absurd (List.mem_singleton.mp h3) hp⟩)
  exact this

/-- Witness for C8: a dangling arrow `A → Z` among two rectangles, resolved
to `A → B`. -/
theorem claimC8_witness :
    buildNodes [c3A, c3B, { i := "X", t := "a", si := some "A", ei := some "B" }] =
      buildNodes [c3A, c3B, c3X] ∧
    (buildEdges [c3A, c3B, { i := "X", t := "a", si := some "A", ei := some "B" }]
        (buildNodes [c3A, c3B, c3X])).length =
      (buildEdges [c3A, c3B, c3X] (buildNodes [c3A, c3B, c3X])).length + 1 ∧
    ("A", "B") ∈ buildEdges [c3A, c3B, { i := "X", t := "a", si := some "A", ei := some "B" }]
        (buildNodes [c3A, c3B, c3X]) :=
  claimC8_dangling_connector [c3A, c3B] [] c3X
    { i := "X", t := "a", si := some "A", ei := some "B" } "A" "B"
    (by decide) (by decide) (by decide) (by decide) (by decide)

/-! ### Claim C5 (frame containment) -/

theorem foldl_min_le (vs : List Int) :
    ∀ acc : Int, vs.foldl min acc ≤ acc ∧ ∀ x ∈ vs, vs.foldl min acc ≤ x := by
  induction vs with
  | nil => intro acc; exact ⟨le_refl acc, fun x hx => absurd hx (List.not_mem_nil x)⟩
  | cons w ws ih =>
      intro acc
      simp only [List.foldl_cons]
      refine ⟨le_trans (ih (min acc w)).1 (min_le_left acc w), ?_⟩
      intro x hx
      rcases List.mem_cons.mp hx with hxw | hxs
      · rw [hxw]
        exact le_trans (ih (min acc w)).1 (min_le_right acc w)
      · exact (ih (min acc w)).2 x hxs

theorem minI_le {l : List Int} {x : Int} (hx : x ∈ l) : minI l ≤ x := by
  cases l with
  | nil => cases hx
  | cons v vs =>
      rcases List.mem_cons.mp hx with hxv | hxs
      · exact hxv ▸ (foldl_min_le vs v).1
      · exact (foldl_min_le vs v).2 x hxs

theorem le_foldl_max (vs : List Int) :
    ∀ acc : Int, acc ≤ vs.foldl max acc ∧ ∀ x ∈ vs, x ≤ vs.foldl max acc := by
  induction vs with
  | nil => intro acc; exact ⟨le_refl acc, fun x hx => absurd hx (List.not_mem_nil x)⟩
  | cons w ws ih =>
      intro acc
      simp only [List.foldl_cons]
      refine ⟨le_trans (le_max_left acc w) (ih (max acc w)).1, ?_⟩
      intro x hx
      rcases List.mem_cons.mp hx with hxw | hxs
      · rw [hxw]
        exact le_trans (le_max_right acc w) (ih (max acc w)).1
      · exact (ih (max acc w)).2 x hxs

theorem le_maxI {l : List Int} {x : Int} (hx : x ∈ l) : x ≤ maxI l := by
  cases l with
  | nil => cases hx
  | cons v vs =>
      rcases List.mem_cons.mp hx with hxv | hxs
      · exact hxv ▸ (le_foldl_max vs v).1
      · exact (le_foldl_max vs v).2 x hxs

theorem frameBoundsStep_eq_of_some {st : Store} {fid : String}
    {fe0 : CompactElement} (h : getById st fid = some fe0) :
    frameBoundsStep st fid =
      if (collectDescendants st (chOf st fid)).length = 0 then st
      else updateById st fid (frameBox (collectDescendants st (chOf st fid))) := by
  unfold frameBoundsStep
  rw [h]

theorem frameBoundsStep_eq_of_none {st : Store} {fid : String}
    (h : getById st fid = none) : frameBoundsStep st fid = st := by
  unfold frameBoundsStep
  rw [h]

theorem frameBoundsStep_ne {st : Store} {fid j : String} (hne : j ≠ fid) :
    getById (frameBoundsStep st fid) j = getById st j := by
  cases h : getById st fid with
  | none => rw [frameBoundsStep_eq_of_none h]
  | some fe =>
      rw [frameBoundsStep_eq_of_some h]
      by_cases hd : (collectDescendants st (chOf st fid)).length = 0
      · rw [if_pos hd]
      · rw [if_neg hd]
        exact getById_updateById_ne st fid (frameBox _) (fun e => rfl) hne

theorem frameBoundsStep_presRel (st : Store) (fid : String) :
    List.Forall₂ presRel st (frameBoundsStep st fid) := by
  cases h : getById st fid with
  | none => rw [frameBoundsStep_eq_of_none h]; exact forall₂_refl presRel_refl st
  | some fe =>
      rw [frameBoundsStep_eq_of_some h]
      by_cases hd : (collectDescendants st (chOf st fid)).length = 0
      · rw [if_pos hd]; exact forall₂_refl presRel_refl st
      · rw [if_neg hd]
        exact updateById_forall₂ presRel_refl
          (frameBox (collectDescendants st (chOf st fid)))
          (fun e => ⟨rfl, rfl, rfl⟩) st fid

theorem frameBoundsPass_presRel (ids : List String) :
    ∀ st : Store, List.Forall₂ presRel st (frameBoundsPass ids st) := by
  induction ids with
  | nil => intro st; exact forall₂_refl presRel_refl st
  | cons p rest ih =>
      intro st
      exact forall₂_trans presRel_trans (frameBoundsStep_presRel st p) (ih _)

theorem frameBoundsPass_notin (ids : List String) :
    ∀ (st : Store) (j : String), ¬ j ∈ ids →
      getById (frameBoundsPass ids st) j = getById st j := by
  induction ids with
  | nil => intro st j _; rfl
  | cons p rest ih =>
      intro st j hj
      have hj1 : j ≠ p := fun h => hj (h ▸ List.mem_cons_self p rest)
      have hj2 : ¬ j ∈ rest := fun h => hj (List.mem_cons_of_mem _ h)
      calc getById (frameBoundsPass rest (frameBoundsStep st p)) j
        _ = getById (frameBoundsStep st p) j := ih _ j hj2
        _ = getById st j := frameBoundsStep_ne hj1

theorem collectDescendants_congr {st st' : Store} (ids : List String)
    (h : ∀ id ∈ ids, getById st id = getById st' id) :
    collectDescendants st ids = collectDescendants st' ids := by
  induction ids with
  | nil => rfl
  | cons c cs ih =>
      unfold collectDescendants
      simp only [List.foldr_cons]
      rw [h c (List.mem_cons_self c cs)]
      have := ih (fun id hid => h id (List.mem_cons_of_mem _ hid))
      unfold collectDescendants at this
      rw [this]

/-- The inequalities of the containment invariant: the frame's box, shrunk
by the 50px padding (plus the 30px title offset above), contains the
child's box (child width/height defaulting to 120/60 as in the source). -/
def containsChild (fe c : CompactElement) : Prop :=
  fe.x.getD 0 + 50 ≤ c.x.getD 0 ∧
  c.x.getD 0 + c.w.getD 120 ≤ fe.x.getD 0 + fe.w.getD 0 - 50 ∧
  fe.y.getD 0 + 80 ≤ c.y.getD 0 ∧
  c.y.getD 0 + c.h.getD 60 ≤ fe.y.getD 0 + fe.h.getD 0 - 50

theorem frameBoundsPass_cons (p : String) (rest : List String) (st : Store) :
    frameBoundsPass (p :: rest) st = frameBoundsPass rest (frameBoundsStep st p) := by
  unfold frameBoundsPass
  rw [List.foldl_cons]

/-- After one full frame-bounding pass in child-before-parent order, every
processed frame's final box contains all its collected children's final
boxes. -/
theorem frameBoundsPass_contains :
    ∀ (ids : List String) (st : Store),
      ids.Nodup →
      ids.Pairwise (fun a b => ¬ b ∈ chOf st a) →
      (∀ a ∈ ids, ¬ a ∈ chOf st a) →
      ∀ fid ∈ ids, ∀ fe, getById (frameBoundsPass ids st) fid = some fe →
        ∀ c ∈ collectDescendants (frameBoundsPass ids st)
            (chOf (frameBoundsPass ids st) fid),
          containsChild fe c := by
  intro ids
  induction ids with
  | nil => intro st _ _ _ fid hfid; cases hfid
  | cons p rest ih =>
      intro st hnd hpw hself fid hfid fe hfe c hc
      obtain ⟨hpnotin, hnd'⟩ := List.nodup_cons.mp hnd
      obtain ⟨hpwhead, hpwtail⟩ := List.pairwise_cons.mp hpw
      rw [frameBoundsPass_cons] at hfe hc
      have hst1rel : List.Forall₂ presRel st (frameBoundsStep st p) :=
        frameBoundsStep_presRel st p
      have hch1 : ∀ a, chOf (frameBoundsStep st p) a = chOf st a :=
        fun a => (chOf_eq (fun a b h => h.1) (fun a b h => h.2.2) hst1rel a).symm
      rcases List.mem_cons.mp hfid with hfp | hfr
      · -- the head frame: its box is set now and never touched again
        subst hfp
        have hgbp : getById (frameBoundsPass rest (frameBoundsStep st fid)) fid =
            getById (frameBoundsStep st fid) fid :=
          frameBoundsPass_notin rest _ fid hpnotin
        have hchF : chOf (frameBoundsPass rest (frameBoundsStep st fid)) fid =
            chOf st fid := by
          rw [← chOf_eq (fun a b h => h.1) (fun a b h => h.2.2)
            (frameBoundsPass_presRel rest (frameBoundsStep st fid)) fid]
          exact hch1 fid
        have hcidF : ∀ cid ∈ chOf st fid,
            getById (frameBoundsPass rest (frameBoundsStep st fid)) cid =
              getById st cid := by
          intro cid hcid
          have hcid_rest : ¬ cid ∈ rest := fun hmem => hpwhead cid hmem hcid
          have hcid_ne : cid ≠ fid := fun heq =>
            hself fid (List.mem_cons_self _ _) (heq ▸ hcid)
          calc getById (frameBoundsPass rest (frameBoundsStep st fid)) cid
            _ = getById (frameBoundsStep st fid) cid :=
                frameBoundsPass_notin rest _ cid hcid_rest
            _ = getById st cid := frameBoundsStep_ne hcid_ne
        have hcoll : collectDescendants
              (frameBoundsPass rest (frameBoundsStep st fid)) (chOf st fid) =
            collectDescendants st (chOf st fid) :=
          collectDescendants_congr _ (fun id hid => hcidF id hid)
        rw [hchF, hcoll] at hc
        rw [hgbp] at hfe
        -- now inspect the step itself
        cases hfe0 : getById st fid with
        | none =>
            rw [frameBoundsStep_eq_of_none hfe0, hfe0] at hfe
            cases hfe
        | some fe0 =>
            rw [frameBoundsStep_eq_of_some hfe0] at hfe
            by_cases hd : (collectDescendants st (chOf st fid)).length = 0
            · rw [if_pos hd] at hfe
              rw [List.length_eq_zero] at hd
              rw [hd] at hc
              cases hc
            · rw [if_neg hd] at hfe
              rw [getById_updateById_self st fid (frameBox _) (fun e => rfl),
                hfe0] at hfe
              have hfe2 : some (frameBox (collectDescendants st (chOf st fid)) fe0) =
                  some fe := hfe
              have hfeq : fe = frameBox (collectDescendants st (chOf st fid)) fe0 :=
                (Option.some.inj hfe2).symm
              set ds := collectDescendants st (chOf st fid) with hds
              have hx : fe.x = some (minI (ds.map (fun c => c.x.getD 0)) - 50) := by
                rw [hfeq]; rfl
              have hy : fe.y =
                  some (minI (ds.map (fun c => c.y.getD 0)) - 50 - 30) := by
                rw [hfeq]; rfl
              have hw : fe.w =
                  some ((maxI (ds.map (fun c => c.x.getD 0 + c.w.getD 120)) + 50) -
                    (minI (ds.map (fun c => c.x.getD 0)) - 50)) := by
                rw [hfeq]; rfl
              have hh : fe.h =
                  some ((maxI (ds.map (fun c => c.y.getD 0 + c.h.getD 60)) + 50) -
                    (minI (ds.map (fun c => c.y.getD 0)) - 50 - 30)) := by
                rw [hfeq]; rfl
              have hmx : minI (ds.map (fun c => c.x.getD 0)) ≤ c.x.getD 0 :=
                minI_le (List.mem_map.mpr ⟨c, hc, rfl⟩)
              have hMx : c.x.getD 0 + c.w.getD 120 ≤
                  maxI (ds.map (fun c => c.x.getD 0 + c.w.getD 120)) :=
                le_maxI (List.mem_map.mpr ⟨c, hc, rfl⟩)
              have hmy : minI (ds.map (fun c => c.y.getD 0)) ≤ c.y.getD 0 :=
                minI_le (List.mem_map.mpr ⟨c, hc, rfl⟩)
              have hMy : c.y.getD 0 + c.h.getD 60 ≤
                  maxI (ds.map (fun c => c.y.getD 0 + c.h.getD 60)) :=
                le_maxI (List.mem_map.mpr ⟨c, hc, rfl⟩)
              refine ⟨?_, ?_, ?_, ?_⟩
              · rw [hx]; simp only [Option.getD_some]; omega
              · rw [hx, hw]; simp only [Option.getD_some]; omega
              · rw [hy]; simp only [Option.getD_some]; omega
              · rw [hy, hh]; simp only [Option.getD_some]; omega
      · -- a later frame: the induction hypothesis applies to the updated store
        have hpw' : rest.Pairwise
            (fun a b => ¬ b ∈ chOf (frameBoundsStep st p) a) := by
          refine hpwtail.imp ?_
          intro a b hab
          rw [hch1 a]
          exact hab
        have hself' : ∀ a ∈ rest, ¬ a ∈ chOf (frameBoundsStep st p) a := by
          intro a ha
          rw [hch1 a]
          exact hself a (List.mem_cons_of_mem _ ha)
        exact ih (frameBoundsStep st p) hnd' hpw' hself' fid hfr fe hfe c hc

/-! ### Structure preservation through the whole pipeline -/

theorem shift_presRel (fuel : Nat) (st : Store) (id : String) (dx dy : Int) :
    List.Forall₂ presRel st (shiftElementAndDescendants fuel st id dx dy).1 :=
  shift_rel dx dy presRel_refl presRel_trans (presRel_shiftGeom dx dy) fuel st id

theorem map_forall₂ {R : CompactElement → CompactElement → Prop}
    (g : CompactElement → CompactElement) (hg : ∀ e, R e (g e)) (l : Store) :
    List.Forall₂ R l (l.map g) := by
  induction l with
  | nil => exact List.Forall₂.nil
  | cons e rest ih => exact List.Forall₂.cons (hg e) ih

theorem applyPositions_presRel (els : Store) (ns : List (String × Int × Int))
    (pos : String → Int × Int) :
    List.Forall₂ presRel els (applyPositions els ns pos) := by
  apply map_forall₂
  intro e
  by_cases h1 : mapType e.t = "arrow" ∨ mapType e.t = "frame"
  · rw [if_pos h1]; exact presRel_refl e
  · rw [if_neg h1]
    cases nodeDims ns e.i with
    | none => exact presRel_refl e
    | some d => exact ⟨rfl, rfl, rfl⟩

theorem applyGrid_rel {R : CompactElement → CompactElement → Prop}
    (hrefl : ∀ a, R a a) (htrans : ∀ a b c, R a b → R b c → R a c)
    (hsh : ∀ dx dy e, R e (shiftGeom dx dy e))
    (hset : ∀ nx ny (e : CompactElement),
      R e { e with x := some nx, y := some ny }) :
    ∀ (plan : List (String × Int × Int)) (fuel : Nat) (st : Store) (sx sy : Int),
      List.Forall₂ R st (applyGrid fuel st plan sx sy).1 := by
  intro plan
  induction plan with
  | nil => intro fuel st sx sy; simp only [applyGrid]; exact forall₂_refl hrefl st
  | cons pos rest ih =>
      intro fuel st sx sy
      simp only [applyGrid]
      cases hgb : getById st pos.1 with
      | none => exact ih fuel st sx sy
      | some child =>
          dsimp only
          by_cases hcf : child.t ≠ "f"
          · rw [if_pos hcf]
            exact forall₂_trans htrans
              (updateById_forall₂ hrefl _ (fun e => hset _ _ e) st pos.1)
              (ih fuel _ sx sy)
          · rw [if_neg hcf]
            cases hs : shiftElementAndDescendants fuel st pos.1
                (sx + pos.2.1 - child.x.getD 0) (sy + pos.2.2 - child.y.getD 0) with
            | mk st1 flag =>
                have hrel : List.Forall₂ R st st1 := by
                  have := shift_rel (sx + pos.2.1 - child.x.getD 0)
                    (sy + pos.2.2 - child.y.getD 0) hrefl htrans
                    (hsh _ _) fuel st pos.1
                  rwa [hs] at this
                cases flag with
                | true => exact forall₂_trans htrans hrel (ih fuel st1 sx sy)
                | false => exact hrel

theorem reflowToGrid_rel {R : CompactElement → CompactElement → Prop}
    (hrefl : ∀ a, R a a) (htrans : ∀ a b c, R a b → R b c → R a c)
    (hsh : ∀ dx dy e, R e (shiftGeom dx dy e))
    (hset : ∀ nx ny (e : CompactElement),
      R e { e with x := some nx, y := some ny })
    (fuel : Nat) (children : List CompactElement) (cols : Nat) (st : Store) :
    List.Forall₂ R st (reflowToGrid fuel children cols st).1 := by
  unfold reflowToGrid
  cases sortStable (fun a b => a.x.getD 0 ≤ b.x.getD 0) children with
  | nil => exact forall₂_refl hrefl st
  | cons c0 cs => exact applyGrid_rel hrefl htrans hsh hset _ fuel st _ _

theorem reflowFrames_presRel :
    ∀ (ids : List String) (fuel : Nat) (st : Store),
      List.Forall₂ presRel st (reflowFrames fuel st ids).1 := by
  intro ids
  induction ids with
  | nil => intro fuel st; simp only [reflowFrames]; exact forall₂_refl presRel_refl st
  | cons fid rest ih =>
      intro fuel st
      simp only [reflowFrames]
      cases hgb : getById st fid with
      | none => exact ih fuel st
      | some frame =>
          dsimp only
          by_cases hlen : (frame.ch.getD []).length < 4
          · rw [if_pos hlen]; exact ih fuel st
          · rw [if_neg hlen]
            cases hch : ((frame.ch.getD []).filterMap (getById st)).filter
                (fun e => e.t ≠ "a") with
            | nil => exact ih fuel st
            | cons c0 cs =>
                dsimp only
                by_cases hcond : ((c0 :: cs).all
                    (fun c => (c.y.getD 0 - c0.y.getD 0).natAbs < 100)) = true ∧
                    3 < (c0 :: cs).length
                · rw [if_pos hcond]
                  cases hrg : reflowToGrid fuel (c0 :: cs)
                      (ceilSqrtScaled (c0 :: cs).length) st with
                  | mk st1 flag =>
                      have hrel : List.Forall₂ presRel st st1 := by
                        have := reflowToGrid_rel presRel_refl presRel_trans
                          (presRel_shiftGeom) (fun nx ny e => ⟨rfl, rfl, rfl⟩)
                          fuel (c0 :: cs) (ceilSqrtScaled (c0 :: cs).length) st
                        rwa [hrg] at this
                      cases flag with
                      | true => exact forall₂_trans presRel_trans hrel (ih fuel st1)
                      | false => exact hrel
                · rw [if_neg hcond]; exact ih fuel st

theorem reflowFrameChildren_presRel (fuel : Nat) (st : Store) :
    List.Forall₂ presRel st (reflowFrameChildren fuel st).1 :=
  reflowFrames_presRel _ fuel st

theorem resolveStep1_rel {R : CompactElement → CompactElement → Prop}
    (hrefl : ∀ a, R a a) (htrans : ∀ a b c, R a b → R b c → R a c)
    (hsh : ∀ dx dy e, R e (shiftGeom dx dy e)) :
    ∀ (l : List String) (fuel : Nat) (st : Store),
      List.Forall₂ R st (resolveStep1 fuel st l).1 := by
  intro l
  induction l with
  | nil => intro fuel st; simp only [resolveStep1]; exact forall₂_refl hrefl st
  | cons p tail ih =>
      intro fuel st
      cases tail with
      | nil => simp only [resolveStep1]; exact forall₂_refl hrefl st
      | cons c rest =>
          simp only [resolveStep1]
          cases hgp : getById st p with
          | none =>
              cases hgc : getById st c with
              | none => exact ih fuel st
              | some curr => exact ih fuel st
          | some prev =>
              cases hgc : getById st c with
              | none => exact ih fuel st
              | some curr =>
                  dsimp only
                  by_cases hlt : curr.x.getD 0 < prev.x.getD 0 + prev.w.getD 0 + 40
                  · rw [if_pos hlt]
                    cases hs : shiftElementAndDescendants fuel st c
                        (prev.x.getD 0 + prev.w.getD 0 + 40 - curr.x.getD 0) 0 with
                    | mk st1 flag =>
                        have hrel : List.Forall₂ R st st1 := by
                          have := shift_rel
                            (prev.x.getD 0 + prev.w.getD 0 + 40 - curr.x.getD 0) 0
                            hrefl htrans (hsh _ _) fuel st c
                          rwa [hs] at this
                        cases flag with
                        | true => exact forall₂_trans htrans hrel (ih fuel st1)
                        | false => exact hrel
                  · rw [if_neg hlt]; exact ih fuel st

theorem resolveStep2_rel {R : CompactElement → CompactElement → Prop}
    (hrefl : ∀ a, R a a) (htrans : ∀ a b c, R a b → R b c → R a c)
    (hsh0 : ∀ dy e, R e (shiftGeom 0 dy e)) :
    ∀ (l : List String) (fuel : Nat) (st : Store) (minY : Int),
      List.Forall₂ R st (resolveStep2 fuel st l minY).1 := by
  intro l
  induction l with
  | nil => intro fuel st minY; simp only [resolveStep2]; exact forall₂_refl hrefl st
  | cons f fs ih =>
      intro fuel st minY
      simp only [resolveStep2]
      cases hgf : getById st f with
      | none => exact ih fuel st minY
      | some frame =>
          dsimp only
          by_cases hcond : minY < frame.y.getD 0 ∧
              (minY - frame.y.getD 0).natAbs < 150
          · rw [if_pos hcond]
            cases hs : shiftElementAndDescendants fuel st f 0
                (minY - frame.y.getD 0) with
            | mk st1 flag =>
                have hrel : List.Forall₂ R st st1 := by
                  have := shift_rel 0 (minY - frame.y.getD 0) hrefl htrans
                    (hsh0 _) fuel st f
                  rwa [hs] at this
                cases flag with
                | true => exact forall₂_trans htrans hrel (ih fuel st1 minY)
                | false => exact hrel
          · rw [if_neg hcond]; exact ih fuel st minY

theorem resolveFrameOverlaps_rel {R : CompactElement → CompactElement → Prop}
    (hrefl : ∀ a, R a a) (htrans : ∀ a b c, R a b → R b c → R a c)
    (hsh : ∀ dx dy e, R e (shiftGeom dx dy e))
    (fuel : Nat) (st : Store) (sibIds : List String) :
    List.Forall₂ R st (resolveFrameOverlaps fuel st sibIds).1 := by
  unfold resolveFrameOverlaps
  dsimp only
  by_cases hlen : (sibIds.filterMap (getById st)).length < 2
  · rw [if_pos hlen]; exact forall₂_refl hrefl st
  · rw [if_neg hlen]
    cases hs1 : resolveStep1 fuel st
        ((sortStable (fun a b => a.x.getD 0 ≤ b.x.getD 0)
          (sibIds.filterMap (getById st))).map (fun e => e.i)) with
    | mk st1 flag =>
        have hrel : List.Forall₂ R st st1 := by
          have := resolveStep1_rel hrefl htrans hsh
            ((sortStable (fun a b => a.x.getD 0 ≤ b.x.getD 0)
              (sibIds.filterMap (getById st))).map (fun e => e.i)) fuel st
          rwa [hs1] at this
        cases flag with
        | true =>
            exact forall₂_trans htrans hrel
              (resolveStep2_rel hrefl htrans (fun dy e => hsh 0 dy e) _ fuel st1 _)
        | false => exact hrel

theorem resolveChildFrameGroups_presRel :
    ∀ (ids : List String) (fuel : Nat) (st : Store),
      List.Forall₂ presRel st (resolveChildFrameGroups fuel st ids).1 := by
  intro ids
  induction ids with
  | nil =>
      intro fuel st
      simp only [resolveChildFrameGroups]
      exact forall₂_refl presRel_refl st
  | cons pid rest ih =>
      intro fuel st
      simp only [resolveChildFrameGroups]
      by_cases hlen : 1 < (((chOf st pid).filterMap (getById st)).filter
          (fun el => mapType el.t = "frame")).length
      · rw [if_pos hlen]
        cases hro : resolveFrameOverlaps fuel st
            ((((chOf st pid).filterMap (getById st)).filter
              (fun el => mapType el.t = "frame")).map (fun el => el.i)) with
        | mk st1 flag =>
            have hrel : List.Forall₂ presRel st st1 := by
              have := resolveFrameOverlaps_rel presRel_refl presRel_trans
                presRel_shiftGeom fuel st
                ((((chOf st pid).filterMap (getById st)).filter
                  (fun el => mapType el.t = "frame")).map (fun el => el.i))
              rwa [hro] at this
            cases flag with
            | true => exact forall₂_trans presRel_trans hrel (ih fuel st1)
            | false => exact hrel
      · rw [if_neg hlen]; exact ih fuel st

theorem layoutWithDagre_fst (fuel : Nat) (els : Store) (cfg : LayoutConfig)
    (orc : Oracle) (hskip : skipCond els = false) :
    (layoutWithDagre fuel els cfg orc).1 = (layoutTry fuel els cfg orc).1 := by
  unfold layoutWithDagre
  rw [hskip]
  simp only [Bool.false_eq_true, if_false]
  cases htry : layoutTry fuel els cfg orc with
  | mk st err =>
      cases err with
      | none => rfl
      | some m =>
          dsimp only
          by_cases ht : isTransientMsg m = true

          · rw [if_pos ht]
          · rw [if_neg ht]

/-- A successful run of the `try` body that reached the dagre call ends
with the final frame-bounding pass over a store that agrees with the input
on every element's id, type and `ch` list. -/
theorem layoutTry_success (fuel : Nat) (els : Store) (cfg : LayoutConfig)
    (orc : Oracle) (hnz : ¬ (buildNodes els).length = 0)
    (herr : (layoutTry fuel els cfg orc).2 = none) :
    ∃ stPre : Store, List.Forall₂ presRel els stPre ∧
      (layoutTry fuel els cfg orc).1 =
        frameBoundsPass (sortedFrameIds els) stPre := by
  unfold layoutTry at herr ⊢
  rw [if_neg hnz] at herr ⊢
  cases horc : orc ⟨cfg, buildNodes els, buildEdges els (buildNodes els)⟩ with
  | error m => rw [horc] at herr; simp at herr
  | ok pos =>
      rw [horc] at herr
      dsimp only at herr ⊢
      cases hrf : reflowFrameChildren fuel
          (frameBoundsPass (sortedFrameIds els)
            (applyPositions els (buildNodes els) pos)) with
      | mk st3 flag3 =>
          rw [hrf] at herr
          cases flag3 with
          | false => cases herr
          | true =>
              dsimp only at herr ⊢
              cases hro : resolveFrameOverlaps fuel
                  (frameBoundsPass (sortedFrameIds els) st3)
                  ((sortedFrameIds els).filter
                    (fun fid => ¬ (fid ∈ containedIds els))) with
              | mk st5 flag5 =>
                  rw [hro] at herr
                  cases flag5 with
                  | false => cases herr
                  | true =>
                      dsimp only at herr ⊢
                      cases hcg : resolveChildFrameGroups fuel st5
                          (sortedFrameIds els) with
                      | mk st6 flag6 =>
                          rw [hcg] at herr
                          cases flag6 with
                          | false => cases herr
                          | true =>
                              refine ⟨st6, ?_, rfl⟩
                              have h1 : List.Forall₂ presRel els
                                  (applyPositions els (buildNodes els) pos) :=
                                applyPositions_presRel els (buildNodes els) pos
                              have h2 := frameBoundsPass_presRel (sortedFrameIds els)
                                (applyPositions els (buildNodes els) pos)
                              have h3 : List.Forall₂ presRel
                                  (frameBoundsPass (sortedFrameIds els)
                                    (applyPositions els (buildNodes els) pos)) st3 := by
                                have := reflowFrameChildren_presRel fuel
                                  (frameBoundsPass (sortedFrameIds els)
                                    (applyPositions els (buildNodes els) pos))
                                rwa [hrf] at this
                              have h4 := frameBoundsPass_presRel (sortedFrameIds els) st3
                              have h5 : List.Forall₂ presRel
                                  (frameBoundsPass (sortedFrameIds els) st3) st5 := by
                                have := resolveFrameOverlaps_rel presRel_refl
                                  presRel_trans presRel_shiftGeom fuel
                                  (frameBoundsPass (sortedFrameIds els) st3)
                                  ((sortedFrameIds els).filter
                                    (fun fid => ¬ (fid ∈ containedIds els)))
                                rwa [hro] at this
                              have h6 : List.Forall₂ presRel st5 st6 := by
                                have := resolveChildFrameGroups_presRel
                                  (sortedFrameIds els) fuel st5
                                rwa [hcg] at this
                              exact forall₂_trans presRel_trans h1
                                (forall₂_trans presRel_trans h2
                                  (forall₂_trans presRel_trans h3
                                    (forall₂_trans presRel_trans h4
                                      (forall₂_trans presRel_trans h5 h6))))

/-- Claim C5: after a completed layout (the skip branch not taken, a
nonempty node set, and the try body finishing without a caught error), for
every frame processed by the bounding passes — under the data-model
invariants: unique ids, the depth-sorted frame order processing children
before parents, and no frame listing itself as its own child — the frame's
box shrunk by the 50px padding (and the 30px title offset at the top)
contains every collected child's box, a nested frame contributing its own
already-computed box. -/
theorem claimC5_frame_containment (fuel : Nat) (els : Store)
    (cfg : LayoutConfig) (orc : Oracle)
    (hskip : skipCond els = false)
    (hnz : ¬ (buildNodes els).length = 0)
    (herr : (layoutTry fuel els cfg orc).2 = none)
    (hnd : (sortedFrameIds els).Nodup)
    (hpw : (sortedFrameIds els).Pairwise (fun a b => ¬ b ∈ chOf els a))
    (hself : ∀ a ∈ sortedFrameIds els, ¬ a ∈ chOf els a) :
    ∀ fid ∈ sortedFrameIds els, ∀ fe,
      getById (layoutWithDagre fuel els cfg orc).1 fid = some fe →
      ∀ c ∈ collectDescendants (layoutWithDagre fuel els cfg orc).1
          (chOf (layoutWithDagre fuel els cfg orc).1 fid),
        containsChild fe c := by
  intro fid hfid fe hfe c hc
  rw [layoutWithDagre_fst fuel els cfg orc hskip] at hfe hc
  obtain ⟨stPre, hrel, heq⟩ := layoutTry_success fuel els cfg orc hnz herr
  rw [heq] at hfe hc
  have hchpre : ∀ a, chOf els a = chOf stPre a :=
    chOf_eq (fun a b h => h.1) (fun a b h => h.2.2) hrel
  have hpw' : (sortedFrameIds els).Pairwise (fun a b => ¬ b ∈ chOf stPre a) := by
    refine hpw.imp ?_
    intro a b hab
    rw [← hchpre a]
    exact hab
  have hself' : ∀ a ∈ sortedFrameIds els, ¬ a ∈ chOf stPre a := by
    intro a ha
    rw [← hchpre a]
    exact hself a ha
  exact frameBoundsPass_contains (sortedFrameIds els) stPre hnd hpw' hself'
    fid hfid fe hfe c hc

/-- A concrete diagram for the C5 witness: a frame with two labelled
rectangles, no pre-set geometry. -/
def c5els : Store :=
  [{ i := "F", t := "fr", ch := some ["a", "b"] },
   { i := "a", t := "r", l := some "alpha" },
   { i := "b", t := "r", l := some "beta" }]

/-- A deterministic stand-in for the dagre call in the C5 witness. -/
def c5orc : Oracle := fun _ =>
  Except.ok (fun id => if id = "a" then (0, 0) else (200, 0))

def c5frame : CompactElement :=
  { i := "F", t := "fr", x := some (-50), y := some (-80),
    w := some 400, h := some 192, ch := some ["a", "b"] }

def c5childA : CompactElement :=
  { i := "a", t := "r", l := some "alpha", x := some 0, y := some 0,
    w := some 100, h := some 62 }

def c5childB : CompactElement :=
  { i := "b", t := "r", l := some "beta", x := some 200, y := some 0,
    w := some 100, h := some 62 }

/-- Witness for C5 at the concrete diagram: the computed frame box contains
both children's boxes inside the padding. -/
theorem claimC5_witness :
    containsChild c5frame c5childA ∧ containsChild c5frame c5childB := by
  have h := claimC5_frame_containment 50 c5els {} c5orc (by decide) (by decide)
    (by decide) (by decide) (by decide) (by decide)
  exact ⟨h "F" (by decide) c5frame (by decide) c5childA (by decide),
    h "F" (by decide) c5frame (by decide) c5childB (by decide)⟩

/-! ### Claim C6 (sibling gap) -/

theorem insertSorted_perm (le : CompactElement → CompactElement → Bool)
    (x : CompactElement) :
    ∀ l : List CompactElement, List.Perm (insertSorted le x l) (x :: l) := by
  intro l
  induction l with
  | nil => exact List.Perm.refl _
  | cons y ys ih =>
      unfold insertSorted
      by_cases hle : le y x = true
      · rw [if_pos hle]
        exact (List.Perm.cons y ih).trans (List.Perm.swap x y ys)
      · rw [if_neg hle]

theorem sortStable_perm (le : CompactElement → CompactElement → Bool)
    (l : List CompactElement) : List.Perm (sortStable le l) l := by
  suffices h : ∀ (l acc : List CompactElement),
      List.Perm (l.foldl (fun acc x => insertSorted le x acc) acc) (acc ++ l) by
    simpa using h l []
  intro l
  induction l with
  | nil => intro acc; simp
  | cons x xs ih =>
      intro acc
      simp only [List.foldl_cons]
      exact (ih _).trans
        (((insertSorted_perm le x acc).append_right xs).trans List.perm_middle.symm)

theorem filterMap_getById_map_i (st : Store) :
    ∀ ids : List String, (∀ id ∈ ids, (getById st id).isSome = true) →
      (ids.filterMap (getById st)).map (fun e => e.i) = ids := by
  intro ids
  induction ids with
  | nil => intro _; rfl
  | cons id rest ih =>
      intro hpres
      have hid := hpres id (List.mem_cons_self _ _)
      obtain ⟨e, he⟩ := Option.isSome_iff_exists.mp hid
      simp only [List.filterMap_cons, he, List.map_cons]
      rw [getById_some_id he, ih (fun d hd => hpres d (List.mem_cons_of_mem _ hd))]

theorem two_le_length_of_ne {l : List String} {a b : String}
    (ha : a ∈ l) (hb : b ∈ l) (hab : a ≠ b) : 2 ≤ l.length := by
  cases l with
  | nil => cases ha
  | cons x rest =>
      cases rest with
      | nil =>
          rw [List.mem_singleton] at ha hb
          exact absurd (ha.trans hb.symm) hab
      | cons y rest2 => simp [Nat.succ_le_succ, Nat.le_add_left]

/-- The effective x coordinate the engine computes for an element
(`el.x ?? 0`, 0 for a missing element). -/
def xg (st : Store) (id : String) : Int :=
  ((getById st id).map (fun e => e.x.getD 0)).getD 0

/-- The effective width (`el.w ?? 0`). -/
def wg (st : Store) (id : String) : Int :=
  ((getById st id).map (fun e => e.w.getD 0)).getD 0

theorem wg_eq_of_shiftRel {l1 l2 : Store} (h : List.Forall₂ shiftRel l1 l2)
    (id : String) : wg l1 id = wg l2 id := by
  unfold wg
  rw [getById_proj (fun e => e.w.getD 0) (fun a b h => h.1.1)
    (fun a b h => by show a.w.getD 0 = b.w.getD 0; rw [h.2.1]) h id]

theorem xg_eq_of_shiftRelY {l1 l2 : Store} (h : List.Forall₂ shiftRelY l1 l2)
    (id : String) : xg l1 id = xg l2 id := by
  unfold xg
  rw [getById_proj (fun e => e.x.getD 0) (fun a b h => h.1.1.1)
    (fun a b h => h.2) h id]

theorem wg_eq_of_shiftRelY {l1 l2 : Store} (h : List.Forall₂ shiftRelY l1 l2)
    (id : String) : wg l1 id = wg l2 id := by
  unfold wg
  rw [getById_proj (fun e => e.w.getD 0) (fun a b h => h.1.1.1)
    (fun a b h => by show a.w.getD 0 = b.w.getD 0; rw [h.1.2.1]) h id]

/-- The step-1 walk only ever shifts elements of the tail of its list, so
anything none of them can reach keeps its store entry. -/
theorem resolveStep1_pres :
    ∀ (l : List String) (fuel : Nat) (st : Store) (b : String),
      (∀ r ∈ l.tail, touchedWithin fuel st r b = false) →
      getById (resolveStep1 fuel st l).1 b = getById st b := by
  intro l
  induction l with
  | nil => intro fuel st b _; simp only [resolveStep1]
  | cons p tail ih =>
      cases tail with
      | nil => intro fuel st b _; simp only [resolveStep1]
      | cons c rest =>
          intro fuel st b htail
          rw [List.tail_cons] at htail
          have htail' : ∀ r ∈ rest, touchedWithin fuel st r b = false :=
            fun r hr => htail r (List.mem_cons_of_mem _ hr)
          simp only [resolveStep1]
          cases hgp : getById st p with
          | none =>
              cases hgc : getById st c with
              | none => exact ih fuel st b (by rw [List.tail_cons]; exact htail')
              | some curr => exact ih fuel st b (by rw [List.tail_cons]; exact htail')
          | some prev =>
              cases hgc : getById st c with
              | none => exact ih fuel st b (by rw [List.tail_cons]; exact htail')
              | some curr =>
                  dsimp only
                  by_cases hlt : curr.x.getD 0 < prev.x.getD 0 + prev.w.getD 0 + 40
                  · rw [if_pos hlt]
                    cases hs : shiftElementAndDescendants fuel st c
                        (prev.x.getD 0 + prev.w.getD 0 + 40 - curr.x.getD 0) 0 with
                    | mk stA flagA =>
                        have hgbA : getById stA b = getById st b := by
                          have := shift_untouched
                            (prev.x.getD 0 + prev.w.getD 0 + 40 - curr.x.getD 0) 0
                            fuel (htail c (List.mem_cons_self _ _))
                          rwa [hs] at this
                        have hrelA : List.Forall₂ presRel st stA := by
                          have := shift_rel
                            (prev.x.getD 0 + prev.w.getD 0 + 40 - curr.x.getD 0) 0
                            presRel_refl presRel_trans (presRel_shiftGeom _ _)
                            fuel st c
                          rwa [hs] at this
                        cases flagA with
                        | true =>
                            rw [← hgbA]
                            apply ih fuel stA b
                            rw [List.tail_cons]
                            intro r hr
                            rw [← touchedWithin_eq (fun a b h => h.1)
                              (fun a b h => h.2.2) hrelA fuel r b]
                            exact htail' r hr
                        | false => exact hgbA
                  · rw [if_neg hlt]
                    exact ih fuel st b (by rw [List.tail_cons]; exact htail')

/-- After step 1 succeeds, consecutive siblings in the processed order are
separated by at least the 40px gap. -/
theorem resolveStep1_gap :
    ∀ (l : List String) (fuel : Nat) (st st' : Store),
      resolveStep1 fuel st l = (st', true) →
      (∀ id ∈ l, (getById st id).isSome = true) →
      l.Pairwise (fun a b => touchedWithin fuel st a b = false ∧
        touchedWithin fuel st b a = false) →
      (∀ a ∈ l, ∀ c2 ∈ chOf st a, touchedWithin fuel st c2 a = false) →
      List.Chain' (fun a b => xg st' a + wg st' a + 40 ≤ xg st' b) l := by
  intro l
  induction l with
  | nil => intro fuel st st' _ _ _ _; exact List.chain'_nil
  | cons p tail ih =>
      cases tail with
      | nil => intro fuel st st' _ _ _ _; exact List.chain'_singleton p
      | cons c rest =>
          intro fuel st st' hres hpres hpw hselfch
          obtain ⟨prev, hprev⟩ :=
            Option.isSome_iff_exists.mp (hpres p (List.mem_cons_self _ _))
          obtain ⟨curr, hcurr⟩ := Option.isSome_iff_exists.mp
            (hpres c (List.mem_cons_of_mem _ (List.mem_cons_self _ _)))
          obtain ⟨hhead, htail2⟩ := List.pairwise_cons.mp hpw
          simp only [resolveStep1, hprev, hcurr] at hres
          have hpres' : ∀ id ∈ c :: rest, (getById st id).isSome = true :=
            fun id hid => hpres id (List.mem_cons_of_mem _ hid)
          have hselfch' : ∀ a ∈ c :: rest, ∀ c2 ∈ chOf st a,
              touchedWithin fuel st c2 a = false :=
            fun a ha => hselfch a (List.mem_cons_of_mem _ ha)
          rw [List.chain'_cons]
          by_cases hlt : curr.x.getD 0 < prev.x.getD 0 + prev.w.getD 0 + 40
          · rw [if_pos hlt] at hres
            cases fuel with
            | zero =>
                simp only [shiftElementAndDescendants] at hres
                simp at hres
            | succ m =>
                cases hs : shiftElementAndDescendants (m + 1) st c
                    (prev.x.getD 0 + prev.w.getD 0 + 40 - curr.x.getD 0) 0 with
                | mk stA flagA =>
                    rw [hs] at hres
                    cases flagA with
                    | false => simp at hres
                    | true =>
                        dsimp only at hres
                        have hrelA : List.Forall₂ presRel st stA := by
                          have := shift_rel
                            (prev.x.getD 0 + prev.w.getD 0 + 40 - curr.x.getD 0) 0
                            presRel_refl presRel_trans (presRel_shiftGeom _ _)
                            (m + 1) st c
                          rwa [hs] at this
                        have hrelAs : List.Forall₂ shiftRel st stA := by
                          have := shift_rel
                            (prev.x.getD 0 + prev.w.getD 0 + 40 - curr.x.getD 0) 0
                            shiftRel_refl shiftRel_trans (shiftRel_shiftGeom _ _)
                            (m + 1) st c
                          rwa [hs] at this
                        -- the shifted sibling lands exactly at prevRight + 40
                        have hrootA : getById stA c =
                            some (shiftGeom
                              (prev.x.getD 0 + prev.w.getD 0 + 40 - curr.x.getD 0)
                              0 curr) := by
                          have hchc : ∀ c2 ∈ chOf st c,
                              touchedWithin m st c2 c = false := by
                            intro c2 hc2
                            exact touchedWithin_antitone (Nat.le_succ m)
                              (hselfch c (List.mem_cons_of_mem _
                                (List.mem_cons_self _ _)) c2 hc2)
                          have := shift_root
                            (prev.x.getD 0 + prev.w.getD 0 + 40 - curr.x.getD 0) 0
                            m st c hchc
                          rw [hs, hcurr] at this
                          exact this
                        have hgbAp : getById stA p = getById st p := by
                          have := shift_untouched
                            (prev.x.getD 0 + prev.w.getD 0 + 40 - curr.x.getD 0) 0
                            (m + 1)
                            (hhead c (List.mem_cons_self _ _)).2
                          rwa [hs] at this
                        -- transported hypotheses for the recursive call
                        have hpresA : ∀ id ∈ c :: rest,
                            (getById stA id).isSome = true := by
                          intro id hid
                          rw [← getById_isSome_eq (fun a b h => h.1) hrelA id]
                          exact hpres' id hid
                        have hpwA : (c :: rest).Pairwise
                            (fun a b => touchedWithin (m + 1) stA a b = false ∧
                              touchedWithin (m + 1) stA b a = false) := by
                          refine htail2.imp ?_
                          intro a b hab
                          rw [← touchedWithin_eq (fun a b h => h.1)
                              (fun a b h => h.2.2) hrelA (m + 1) a b,
                            ← touchedWithin_eq (fun a b h => h.1)
                              (fun a b h => h.2.2) hrelA (m + 1) b a]
                          exact hab
                        have hselfchA : ∀ a ∈ c :: rest, ∀ c2 ∈ chOf stA a,
                            touchedWithin (m + 1) stA c2 a = false := by
                          intro a ha c2 hc2
                          rw [← chOf_eq (fun a b h => h.1) (fun a b h => h.2.2)
                            hrelA a] at hc2
                          rw [← touchedWithin_eq (fun a b h => h.1)
                            (fun a b h => h.2.2) hrelA (m + 1) c2 a]
                          exact hselfch' a ha c2 hc2
                        have hchain := ih (m + 1) stA st' hres hpresA hpwA hselfchA
                        refine ⟨?_, hchain⟩
                        -- p and c keep their post-shift values through the rest
                        have hgp' : getById st' p = getById st p := by
                          have := resolveStep1_pres (c :: rest) (m + 1) stA p ?_
                          · rw [hres] at this
                            rw [this, hgbAp]
                          · rw [List.tail_cons]
                            intro r hr
                            rw [← touchedWithin_eq (fun a b h => h.1)
                              (fun a b h => h.2.2) hrelA (m + 1) r p]
                            exact (hhead r (List.mem_cons_of_mem _ hr)).2
                        have hgc' : getById st' c = getById stA c := by
                          have := resolveStep1_pres (c :: rest) (m + 1) stA c ?_
                          · rw [hres] at this
                            exact this
                          · rw [List.tail_cons]
                            intro r hr
                            have hrc := (List.pairwise_cons.mp htail2).1 r hr
                            rw [← touchedWithin_eq (fun a b h => h.1)
                              (fun a b h => h.2.2) hrelA (m + 1) r c]
                            exact hrc.2
                        have hxp : xg st' p = prev.x.getD 0 := by
                          unfold xg; rw [hgp', hprev]; rfl
                        have hwp : wg st' p = prev.w.getD 0 := by
                          unfold wg; rw [hgp', hprev]; rfl
                        have hxc : xg st' c =
                            prev.x.getD 0 + prev.w.getD 0 + 40 := by
                          unfold xg
                          rw [hgc', hrootA]
                          show (shiftGeom _ 0 curr).x.getD 0 = _
                          simp only [shiftGeom, Option.getD_some]
                          omega
                        rw [hxp, hwp, hxc]
          · rw [if_neg hlt] at hres
            have hchain := ih fuel st st' hres hpres' htail2 hselfch'
            refine ⟨?_, hchain⟩
            have hgp' : getById st' p = getById st p := by
              have := resolveStep1_pres (c :: rest) fuel st p ?_
              · rw [hres] at this
                exact this
              · rw [List.tail_cons]
                intro r hr
                exact (hhead r (List.mem_cons_of_mem _ hr)).2
            have hgc' : getById st' c = getById st c := by
              have := resolveStep1_pres (c :: rest) fuel st c ?_
              · rw [hres] at this
                exact this
              · rw [List.tail_cons]
                intro r hr
                exact ((List.pairwise_cons.mp htail2).1 r hr).2
            have hxp : xg st' p = prev.x.getD 0 := by
              unfold xg; rw [hgp', hprev]; rfl
            have hwp : wg st' p = prev.w.getD 0 := by
              unfold wg; rw [hgp', hprev]; rfl
            have hxc : xg st' c = curr.x.getD 0 := by
              unfold xg; rw [hgc', hcurr]; rfl
            rw [hxp, hwp, hxc]
            omega

theorem chain_gap_pairwise (st' : Store) :
    ∀ l : List String,
      List.Chain' (fun a b => xg st' a + wg st' a + 40 ≤ xg st' b) l →
      (∀ id ∈ l, 0 ≤ wg st' id) →
      l.Pairwise (fun a b => xg st' a + wg st' a + 40 ≤ xg st' b) := by
  intro l
  induction l with
  | nil => intro _ _; exact List.Pairwise.nil
  | cons a tail ih =>
      intro hch hw
      cases tail with
      | nil => simp
      | cons b rest =>
          rw [List.chain'_cons] at hch
          have hpw2 := ih hch.2 (fun id hid => hw id (List.mem_cons_of_mem _ hid))
          refine List.Pairwise.cons ?_ hpw2
          intro x hx
          rcases List.mem_cons.mp hx with hxb | hxr
          · rw [hxb]; exact hch.1
          · have hbx := (List.pairwise_cons.mp hpw2).1 x hxr
            have hwb : 0 ≤ wg st' b :=
              hw b (List.mem_cons_of_mem _ (List.mem_cons_self _ _))
            have hab := hch.1
            omega

theorem pairwise_both {R : String → String → Prop} :
    ∀ l : List String, l.Pairwise R → ∀ a ∈ l, ∀ b ∈ l, a ≠ b →
      R a b ∨ R b a := by
  intro l
  induction l with
  | nil => intro _ a ha; cases ha
  | cons x rest ih =>
      intro hpw a ha b hb hab
      obtain ⟨hhead, htail⟩ := List.pairwise_cons.mp hpw
      rcases List.mem_cons.mp ha with hax | har
      · rcases List.mem_cons.mp hb with hbx | hbr
        · exact absurd (hax.trans hbx.symm) hab
        · refine Or.inl ?_
          rw [hax]
          exact hhead b hbr
      · rcases List.mem_cons.mp hb with hbx | hbr
        · refine Or.inr ?_
          rw [hbx]
          exact hhead a har
        · exact ih htail a har b hbr hab

/-- Claim C6: after `resolveFrameOverlaps` completes on a sibling group —
under the data-model invariants: distinct sibling ids, all present in the
store, no sibling reachable through another sibling's containment subtree,
no sibling's subtree looping back onto it, and nonnegative widths — any two
distinct siblings' horizontal extents are separated by at least the
`GAP = 40` minimum gap. -/
theorem claimC6_sibling_gap (fuel : Nat) (st st' : Store)
    (sibIds : List String)
    (hres : resolveFrameOverlaps fuel st sibIds = (st', true))
    (hnd : sibIds.Nodup)
    (hpres : ∀ id ∈ sibIds, (getById st id).isSome = true)
    (hcross : ∀ a ∈ sibIds, ∀ b ∈ sibIds, a ≠ b →
      touchedWithin fuel st a b = false)
    (hselfch : ∀ a ∈ sibIds, ∀ c2 ∈ chOf st a,
      touchedWithin fuel st c2 a = false)
    (hw : ∀ id ∈ sibIds, 0 ≤ wg st id) :
    ∀ a ∈ sibIds, ∀ b ∈ sibIds, a ≠ b →
      xg st' a + wg st' a + 40 ≤ xg st' b ∨
      xg st' b + wg st' b + 40 ≤ xg st' a := by
  intro a ha b hb hab
  unfold resolveFrameOverlaps at hres
  dsimp only at hres
  by_cases hlen : (sibIds.filterMap (getById st)).length < 2
  · rw [if_pos hlen] at hres
    exfalso
    have hmapi := filterMap_getById_map_i st sibIds hpres
    have hlm := congrArg List.length hmapi
    rw [List.length_map] at hlm
    have h2 := two_le_length_of_ne ha hb hab
    omega
  · rw [if_neg hlen] at hres
    have hperm : List.Perm
        ((sortStable (fun a b => a.x.getD 0 ≤ b.x.getD 0)
          (sibIds.filterMap (getById st))).map (fun e => e.i)) sibIds := by
      have hp1 := sortStable_perm (fun a b => a.x.getD 0 ≤ b.x.getD 0)
        (sibIds.filterMap (getById st))
      have := hp1.map (fun e => e.i)
      rwa [filterMap_getById_map_i st sibIds hpres] at this
    have hmem : ∀ x, x ∈ ((sortStable (fun a b => a.x.getD 0 ≤ b.x.getD 0)
        (sibIds.filterMap (getById st))).map (fun e => e.i)) ↔ x ∈ sibIds :=
      fun x => hperm.mem_iff
    cases hs1 : resolveStep1 fuel st
        ((sortStable (fun a b => a.x.getD 0 ≤ b.x.getD 0)
          (sibIds.filterMap (getById st))).map (fun e => e.i)) with
    | mk st1 flag1 =>
        rw [hs1] at hres
        cases flag1 with
        | false => simp at hres
        | true =>
            dsimp only at hres
            have hndids : ((sortStable (fun a b => a.x.getD 0 ≤ b.x.getD 0)
                (sibIds.filterMap (getById st))).map (fun e => e.i)).Nodup :=
              hperm.nodup_iff.mpr hnd
            have hpw0 : ((sortStable (fun a b => a.x.getD 0 ≤ b.x.getD 0)
                (sibIds.filterMap (getById st))).map (fun e => e.i)).Pairwise
                (fun a b => touchedWithin fuel st a b = false ∧
                  touchedWithin fuel st b a = false) := by
              refine hndids.imp_of_mem ?_
              intro x y hx hy hxy
              exact ⟨hcross x ((hmem x).mp hx) y ((hmem y).mp hy) hxy,
                hcross y ((hmem y).mp hy) x ((hmem x).mp hx) (Ne.symm hxy)⟩
            have hchain := resolveStep1_gap _ fuel st st1 hs1
              (fun id hid => hpres id ((hmem id).mp hid)) hpw0
              (fun a2 ha2 => hselfch a2 ((hmem a2).mp ha2))
            have hrelS : List.Forall₂ shiftRel st st1 := by
              have := resolveStep1_rel shiftRel_refl shiftRel_trans
                shiftRel_shiftGeom
                ((sortStable (fun a b => a.x.getD 0 ≤ b.x.getD 0)
                  (sibIds.filterMap (getById st))).map (fun e => e.i)) fuel st
              rwa [hs1] at this
            have hrelY : List.Forall₂ shiftRelY st1 st' := by
              have := resolveStep2_rel shiftRelY_refl shiftRelY_trans
                shiftRelY_shiftGeom
                ((sortStable (fun a b => a.x.getD 0 ≤ b.x.getD 0)
                  (sibIds.filterMap (getById st))).map (fun e => e.i)) fuel st1
                (minI ((((sortStable (fun a b => a.x.getD 0 ≤ b.x.getD 0)
                  (sibIds.filterMap (getById st))).map (fun e => e.i)).filterMap
                    (getById st1)).map (fun f => f.y.getD 0)))
              rwa [hres] at this
            have hchain' : List.Chain'
                (fun a b => xg st' a + wg st' a + 40 ≤ xg st' b)
                ((sortStable (fun a b => a.x.getD 0 ≤ b.x.getD 0)
                  (sibIds.filterMap (getById st))).map (fun e => e.i)) := by
              refine hchain.imp ?_
              intro x y hxy
              rw [← xg_eq_of_shiftRelY hrelY x, ← xg_eq_of_shiftRelY hrelY y,
                ← wg_eq_of_shiftRelY hrelY x]
              exact hxy
            have hwids : ∀ id ∈ ((sortStable (fun a b => a.x.getD 0 ≤ b.x.getD 0)
                (sibIds.filterMap (getById st))).map (fun e => e.i)),
                0 ≤ wg st' id := by
              intro id hid
              have h1 := wg_eq_of_shiftRel hrelS id
              have h2 := wg_eq_of_shiftRelY hrelY id
              have h3 := hw id ((hmem id).mp hid)
              omega
            have hpwgap := chain_gap_pairwise st' _ hchain' hwids
            exact pairwise_both _ hpwgap a ((hmem a).mpr ha) b ((hmem b).mpr hb) hab

/-- Two overlapping top-level frames (each with one child) for the C6
witness. -/
def c6els : Store :=
  [{ i := "F1", t := "fr", x := some 0, y := some 0, w := some 200,
     h := some 100, ch := some ["u"] },
   { i := "u", t := "r", x := some 50, y := some 30, w := some 80,
     h := some 40 },
   { i := "F2", t := "fr", x := some 100, y := some 20, w := some 150,
     h := some 100, ch := some ["v"] },
   { i := "v", t := "r", x := some 120, y := some 50, w := some 60,
     h := some 30 }]

/-- Witness for C6: after resolution the two concrete frames are separated
horizontally by at least 40. -/
theorem claimC6_witness :
    xg (resolveFrameOverlaps 10 c6els ["F1", "F2"]).1 "F1" +
        wg (resolveFrameOverlaps 10 c6els ["F1", "F2"]).1 "F1" + 40 ≤
      xg (resolveFrameOverlaps 10 c6els ["F1", "F2"]).1 "F2" ∨
    xg (resolveFrameOverlaps 10 c6els ["F1", "F2"]).1 "F2" +
        wg (resolveFrameOverlaps 10 c6els ["F1", "F2"]).1 "F2" + 40 ≤
      xg (resolveFrameOverlaps 10 c6els ["F1", "F2"]).1 "F1" := by
  have h := claimC6_sibling_gap 10 c6els
    (resolveFrameOverlaps 10 c6els ["F1", "F2"]).1 ["F1", "F2"]
    (by decide) (by decide) (by decide) (by decide) (by decide) (by decide)
  exact h "F1" (by decide) "F2" (by decide) (by decide)

end NoexLayout
